import Mathlib

/-!
Verification development for the tick/candle aggregation core of
`core/fyers/processor.py` (CandleAggregator, proportional allocation,
footprint building, historical row reconciliation, and the
`process_live_data` entry point).

Modelling conventions:

* Python `int` is modelled by `Int`; Python `float` is modelled by `ℚ`
  (exact rational arithmetic).  The decisive concrete inputs used in the
  theorems below only involve values for which binary64 arithmetic is
  exact (small integers and halves), so the rational model agrees with
  the float semantics there.
* Python `round` (banker's rounding, round-half-to-even) is modelled by
  `pyRoundHalfEven` / `pyRound`.
* Python `//` on integers (floor division) is modelled by `Int.fdiv`,
  and `%` by `Int.emod`.
* Arithmetic on `ℚ` is performed through the executable wrappers
  `qadd`, `qsub`, `qmul`, `qdiv`, `qfloor`, ... (kernel-reducible, so
  concrete runs can be settled by `decide`); the bridge lemmas
  `qadd_eq`, ... identify them with Mathlib's field operations for the
  symbolic proofs.
* Timestamps are naive unix seconds; the session timezone Asia/Kolkata
  is the fixed offset +19800 s (IST has no DST), and the host timezone
  of the process is assumed to be IST as well, which the module's
  zoneinfo-based code enforces for the bin alignment path.
* Dictionaries with insertion order (the footprint maps) are modelled
  by association lists; per-symbol state dictionaries are projected to
  the state of one symbol, since every claim quantifies per symbol.
-/

/-! ## Executable rational arithmetic (kernel-reducible wrappers) -/

/-- Embed an integer into `ℚ` by a literal structure (reducible, unlike
the `Int.cast` path hidden behind irreducible `Rat` arithmetic). -/
def qInt (i : Int) : ℚ :=
  { num := i, den := 1, den_nz := one_ne_zero, reduced := Nat.coprime_one_right _ }

/-- Executable multiplication on `ℚ`. -/
def qmul (a b : ℚ) : ℚ := Rat.divInt (a.num * b.num) (a.den * b.den)

/-- Executable addition on `ℚ`. -/
def qadd (a b : ℚ) : ℚ := Rat.divInt (a.num * b.den + b.num * a.den) (a.den * b.den)

/-- Executable subtraction on `ℚ`. -/
def qsub (a b : ℚ) : ℚ := Rat.divInt (a.num * b.den - b.num * a.den) (a.den * b.den)

/-- Executable division on `ℚ` (returns 0 for a zero divisor, which the
model only ever reaches behind positivity guards). -/
def qdiv (a b : ℚ) : ℚ := Rat.divInt (a.num * b.den) (a.den * b.num)

/-- Executable floor `ℚ → ℤ`. -/
def qfloor (a : ℚ) : Int := a.num.fdiv a.den

/-- Python `round(x)` with no digits: round half to even, returning an
integer. -/
def pyRoundHalfEven (q : ℚ) : Int :=
  let f := qfloor q
  let r := qsub q (qInt f)
  if r < mkRat 1 2 then f
  else if mkRat 1 2 < r then f + 1
  else if f % 2 = 0 then f else f + 1

/-- Python `round(x, d)` for `d ≥ 1` digits: scale, round half to even,
unscale. -/
def pyRound (q : ℚ) (d : Nat) : ℚ :=
  mkRat (pyRoundHalfEven (qmul q (qInt (10 ^ d)))) (10 ^ d)

/-! ## `_proportional_alloc` (processor.py lines 203-257)

The Python implementation sorts the index/fractional-remainder pairs by
`(remainder, -index)` descending and adds one unit to the first `rem`
entries of the sorted list.  All sort keys are pairwise distinct (the
index breaks every tie), so the stable-sort output is the unique order
under the strict lexicographic comparison, which `List.insertionSort`
with the total relation `allocBefore` reproduces; and adding one unit to
the first `rem` entries is reproduced by membership in the prefix, the
bumped indices being pairwise distinct. -/

/-- Sort relation used by `_proportional_alloc`: `a` may precede `b` iff
`a`'s fractional remainder is larger, ties broken by lower index. -/
def allocBefore (a b : Nat × ℚ) : Prop :=
  b.2 < a.2 ∨ (a.2 = b.2 ∧ a.1 ≤ b.1)

instance : DecidableRel allocBefore := fun a b =>
  inferInstanceAs (Decidable (_ ∨ _))

instance : IsTotal (Nat × ℚ) allocBefore :=
  ⟨fun a b => by
    rcases lt_trichotomy a.2 b.2 with h | h | h
    · exact Or.inr (Or.inl h)
    · rcases Nat.le_total a.1 b.1 with h1 | h1
      · exact Or.inl (Or.inr ⟨h, h1⟩)
      · exact Or.inr (Or.inr ⟨h.symm, h1⟩)
    · exact Or.inl (Or.inl h)⟩

instance : IsTrans (Nat × ℚ) allocBefore :=
  ⟨fun a b c hab hbc => by
    rcases hab with h1 | ⟨h1, h1i⟩ <;> rcases hbc with h2 | ⟨h2, h2i⟩
    · exact Or.inl (h2.trans h1)
    · exact Or.inl (h2 ▸ h1)
    · exact Or.inl (h1 ▸ h2)
    · exact Or.inr ⟨h1.trans h2, h1i.trans h2i⟩⟩

/-- `_proportional_alloc(total, weights)`: largest-remainder integer
allocation with exact rational shares (processor.py lines 203-245).
The input weights are already integers in the model (the Python
`0 if w is None else int(w)` coercion is identity here). -/
def proportional_alloc (total : Int) (weights : List Int) : List Int :=
  let n := weights.length
  if n = 0 then []
  else if total ≤ 0 then List.replicate n 0
  else
    let s := weights.sum
    if s ≤ 0 then
      let base := total.fdiv n
      let rem := total - base * n
      (List.range n).map (fun (i : Nat) => base + if (i : Int) < rem then 1 else 0)
    else
      let shares : Nat → ℚ := fun i => qdiv (qInt (total * weights.getD i 0)) (qInt s)
      let floored : Nat → Int := fun i => qfloor (shares i)
      let rem := total - ((List.range n).map floored).sum
      let pairs := (List.range n).map (fun i => (i, qsub (shares i) (qInt (floored i))))
      let sorted := List.insertionSort allocBefore pairs
      let bump := (sorted.take rem.toNat).map Prod.fst
      (List.range n).map (fun i => floored i + if i ∈ bump then 1 else 0)

/-- `_proportional_alloc_signed(delta, weights)` (processor.py lines
247-257). -/
def proportional_alloc_signed (delta : Int) (weights : List Int) : List Int :=
  if delta = 0 then List.replicate weights.length 0
  else
    let sign : Int := if delta > 0 then 1 else -1
    (proportional_alloc |delta| weights).map (fun a => sign * a)

/-! ## Executable absolute value and negation on `ℚ` -/

/-- Executable negation on `ℚ`. -/
def qneg (a : ℚ) : ℚ :=
  { num := -a.num, den := a.den, den_nz := a.den_nz,
    reduced := by rw [Int.natAbs_neg]; exact a.reduced }

/-- Executable absolute value on `ℚ`. -/
def qabs (a : ℚ) : ℚ := if a < 0 then qneg a else a

/-! ## Data model

`Candle` mirrors the candle dict built by `CandleAggregator.process_tick`
(and by the seeding path of `process_live_data`, which omits the
`cum_volume` key - hence the `Option`).  The per-symbol dictionaries of
the aggregator are projected to one symbol: each `Dict[str, X]` becomes
one `X` (with `Option` where a missing key is observable, and the
documented defaults where reads use `.get(symbol, default)`). -/

structure PriceLevel where
  priceLevel : ℚ
  buyVolume : Int
  sellVolume : Int
deriving DecidableEq

/-- Footprint map: insertion-ordered dict from price bucket to
(buy, sell). -/
abbrev FpMap : Type := List (ℚ × Int × Int)

structure Candle where
  time : Int
  open_ : ℚ
  high : ℚ
  low : ℚ
  close : ℚ
  volume : Int
  buy_vol : Int
  sell_vol : Int
  delta : Int
  cum_delta : Int
  footprint : List PriceLevel
  cum_volume : Option Int
deriving DecidableEq

/-- Dedup key `(ts, round(ltp, 6), vol, buy, sell, trade_id)`
(processor.py line 423). -/
structure TradeKey where
  ts : Int
  ltp6 : ℚ
  vol : Int
  buy : Int
  sell : Int
  trade_id : Option Int
deriving DecidableEq

/-- Incoming tick message, restricted to the recognized keys with
well-typed values (prices rational, quantities integral; a missing key
is `none`). -/
structure Msg where
  symbol : Option String := none
  ltp : Option ℚ := none
  exch_feed_time : Option Int := none
  last_traded_time : Option Int := none
  last_traded_qty : Option Int := none
  vol_traded_today : Option Int := none
  bid_price : Option ℚ := none
  ask_price : Option ℚ := none
  tot_buy_qty : Option Int := none
  tot_sell_qty : Option Int := none
  ch : Option ℚ := none
  open_price : Option ℚ := none
  trade_id : Option Int := none

/-- Per-symbol state of one `CandleAggregator`. -/
structure AggState where
  candle : Option Candle := none
  footprint : FpMap := []
  recent_trades : List TradeKey := []
  last_ltp : Option ℚ := none
  last_cum_volume : Option Int := none
  last_processed_cum_volume : Option Int := none
  session_cum_delta : Int := 0
  last_trading_day : Option Int := none
  current_candle_time : Option Int := none
deriving DecidableEq

/-- Aggregator configuration (constructor arguments). -/
structure AggConfig where
  timeframe : String
  bucket_size : ℚ
  multiplier : Int

def initState : AggState := {}

/-! ## Time and session helpers (processor.py lines 49-163) -/

/-- Asia/Kolkata is UTC+5:30, no DST. -/
def istOffset : Int := 19800

/-- `_INTERVAL_MAP.get(timeframe, 300)`. -/
def interval_map (tf : String) : Int :=
  if tf = "1m" then 60
  else if tf = "5m" then 300
  else if tf = "15m" then 900
  else if tf = "1d" then 86400
  else 300

/-- `normalize_timestamp_to_seconds` restricted to integer input
(processor.py lines 49-81).  Python computes `int(t / 1eK)` in binary64;
the claims only use second-range timestamps (`t < 1e12`), where the
function is the identity, which the integer model reproduces exactly. -/
def normalize_timestamp_to_seconds (t : Int) : Option Int :=
  if t ≤ 0 then none
  else if 10 ^ 18 ≤ t then some (t.fdiv (10 ^ 9))
  else if 10 ^ 15 ≤ t then some (t.fdiv (10 ^ 6))
  else if 10 ^ 12 ≤ t then some (t.fdiv (10 ^ 3))
  else some t

/-- `get_market_open_timestamp` for a timestamp interpreted in IST:
09:15 IST of the same IST calendar day (9*3600 + 15*60 = 33300). -/
def get_market_open_timestamp (ts : Int) : Int :=
  ((ts + istOffset).fdiv 86400) * 86400 + 33300 - istOffset

/-- `calculate_aligned_time_bin` (processor.py lines 83-134). -/
def calculate_aligned_time_bin (ts interval : Int) : Int :=
  let market_open_ts := get_market_open_timestamp ts
  if ts < market_open_ts then (ts.fdiv interval) * interval
  else market_open_ts + ((ts - market_open_ts).fdiv interval) * interval

/-- `CandleAggregator._is_first_candle_of_day` (processor.py lines
713-720), with the naive local time taken in IST. -/
def is_first_candle_of_day (tf : String) (time_bin : Int) : Bool :=
  let lt := time_bin + istOffset
  let hour := (lt.fdiv 3600) % 24
  let minute := (lt.fdiv 60) % 60
  if tf = "1m" ∨ tf = "5m" ∨ tf = "15m" then hour == 9 && minute == 15
  else hour == 9 && minute ≤ 20

/-! ## Bucket quantization and footprint lookup (lines 165-199) -/

/-- `get_bucket_key(price, bucket_size, multiplier)` (lines 165-187). -/
def get_bucket_key (price bucket_size : ℚ) (multiplier : Int) : ℚ :=
  let bucket_value := qmul bucket_size (qInt multiplier)
  if bucket_value ≤ 0 then pyRound price 2
  else pyRound (qmul (qInt (qfloor (qdiv price bucket_value))) bucket_value) 2

/-- `_get_fp_entry_with_tolerance(level, fp_map)` (lines 189-199):
first entry, in insertion order, within 1e-6 of the level. -/
def get_fp_entry_with_tolerance (level : ℚ) (fp : FpMap) : Int × Int :=
  match List.find? (fun e => qabs (qsub e.1 level) < mkRat 1 1000000) fp with
  | some e => e.2
  | none => (0, 0)

/-! ## Aggressor classification (lines 260-353) -/

/-- 50/50 split, remainder to sell (`vol // 2` to buy). -/
def halfSplit (vol : Int) : Int × Int := (vol.fdiv 2, vol - vol.fdiv 2)

/-- Order-book pressure split:
`buy = int(round(vol * (tot_buy_qty / total_pressure)))`. -/
def pressureRatioSplit (vol tb tsq : Int) : Int × Int :=
  let b := pyRoundHalfEven (qmul (qInt vol) (qdiv (qInt tb) (qInt (tb + tsq))))
  (b, vol - b)

/-- `calculate_aggressor_volumes(msg, vol)` (lines 260-353). -/
def calculate_aggressor_volumes (m : Msg) (vol : Int) : Int × Int :=
  if vol ≤ 0 then (0, 0)
  else
    let eps : ℚ := mkRat 1 1000000
    let pressure : Int × Int :=
      match m.tot_buy_qty, m.tot_sell_qty with
      | some tb, some tsq =>
        if 0 < tb + tsq then pressureRatioSplit vol tb tsq else halfSplit vol
      | _, _ => halfSplit vol
    let m1 : Int × Int :=
      match m.bid_price, m.ask_price, m.ltp with
      | some bid, some ask, some ltp =>
        if bid ≤ ask then
          if qsub ask eps ≤ ltp then (vol, 0)
          else if ltp ≤ qadd bid eps then (0, vol)
          else pressure
        else pressure
      | _, _, _ => (0, 0)
    let m2 : Int × Int :=
      if m1.1 + m1.2 = 0 then
        match m.tot_buy_qty, m.tot_sell_qty with
        | some tb, some tsq =>
          if 0 < tb + tsq then pressureRatioSplit vol tb tsq else m1
        | _, _ => m1
      else m1
    let m3 : Int × Int :=
      if m2.1 + m2.2 = 0 then
        match m.ch with
        | some ch => if 0 < ch then (vol, 0) else if ch < 0 then (0, vol) else halfSplit vol
        | none => halfSplit vol
      else m2
    let m4 : Int × Int :=
      if m3.1 + m3.2 ≠ vol then
        (if m3.1 ≥ m3.2 then (m3.1 + (vol - (m3.1 + m3.2)), m3.2)
         else (m3.1, m3.2 + (vol - (m3.1 + m3.2))))
      else m3
    (max 0 m4.1, max 0 m4.2)

/-- The `buy + sell != vol` fix-up applied by `process_tick` right after
classification (lines 414-420). -/
def fixupBuySell (vol : Int) (bs : Int × Int) : Int × Int :=
  if bs.1 + bs.2 ≠ vol then
    (if bs.1 ≥ bs.2 then (bs.1 + (vol - (bs.1 + bs.2)), bs.2)
     else (bs.1, bs.2 + (vol - (bs.1 + bs.2))))
  else bs

/-! ## Volume extraction (`_determine_trade_volume`, lines 514-555) -/

/-- `int(raw_trade) if isinstance(raw_trade, (int, float)) and raw_trade > 0 else 0`. -/
def rawTradePos : Option Int → Int
  | some q => if 0 < q then q else 0
  | none => 0

/-- Value part of `CandleAggregator._determine_trade_volume`: the trade
volume and the new `_last_cum_volume` / `_last_processed_cum_volume`
entries, as a function of the old ones. -/
def determine_trade_volume_vals (last_cum last_processed : Option Int) (m : Msg) :
    Int × Option Int × Option Int :=
  match m.vol_traded_today with
  | some cum =>
    if 0 ≤ cum then
      match last_processed with
      | none => (rawTradePos m.last_traded_qty, some cum, some cum)
      | some last =>
        if cum < last then (rawTradePos m.last_traded_qty, some cum, some cum)
        else
          let delta := cum - last
          if delta ≤ 0 ∨ 2000000 < delta then
            let raw := rawTradePos m.last_traded_qty
            if 0 < raw then (raw, some cum, some cum)
            else (0, some cum, last_processed)
          else (delta, some cum, some cum)
    else (rawTradePos m.last_traded_qty, last_cum, last_processed)
  | none => (rawTradePos m.last_traded_qty, last_cum, last_processed)

/-- `CandleAggregator._determine_trade_volume`, returning the volume and
the state with `_last_cum_volume` / `_last_processed_cum_volume`
updated (the only two fields the Python method writes). -/
def determine_trade_volume (st : AggState) (m : Msg) : Int × AggState :=
  let r := determine_trade_volume_vals st.last_cum_volume st.last_processed_cum_volume m
  (r.1, { st with last_cum_volume := r.2.1, last_processed_cum_volume := r.2.2 })

/-- Append to the recent-trade deque with `maxlen=200` (oldest entries
dropped from the front). -/
def pushRecentTrade (ring : List TradeKey) (k : TradeKey) : List TradeKey :=
  let l := ring ++ [k]
  if 200 < l.length then l.drop (l.length - 200) else l

/-! ## Footprint ladder building (`build_footprint_from_map`,
lines 1138-1238) -/

def ladderBuySum (l : List PriceLevel) : Int := (l.map (fun it => it.buyVolume)).sum

def ladderSellSum (l : List PriceLevel) : Int := (l.map (fun it => it.sellVolume)).sum

/-- `max(range(len(ladder)), key=lambda i: buy+sell)`: index of the
first maximal-volume level (Python `max` keeps the first maximum). -/
def ladderArgmaxIdx (l : List PriceLevel) : Nat :=
  (List.range l.length).foldl
    (fun best i =>
      let vi := (l.getD i ⟨0, 0, 0⟩).buyVolume + (l.getD i ⟨0, 0, 0⟩).sellVolume
      let vb := (l.getD best ⟨0, 0, 0⟩).buyVolume + (l.getD best ⟨0, 0, 0⟩).sellVolume
      if vb < vi then i else best) 0

/-- Descending, stable order on price levels: `a` may precede `b` iff
`b.priceLevel ≤ a.priceLevel` (Python `sorted(..., reverse=True)` is
stable; `List.insertionSort` with this relation is the same stable
sort). -/
def ladderBefore (a b : PriceLevel) : Prop := b.priceLevel ≤ a.priceLevel

instance : DecidableRel ladderBefore := fun a b =>
  inferInstanceAs (Decidable (_ ≤ _))

instance : IsTotal PriceLevel ladderBefore := ⟨fun a b => le_total b.priceLevel a.priceLevel⟩

instance : IsTrans PriceLevel ladderBefore := ⟨fun _ _ _ h1 h2 => le_trans h2 h1⟩

/-- The ladder enumeration of `build_footprint_from_map` (lines
1139-1193), before the reconciliation stage: one `PriceLevel` per bucket
index between `floor(low/B)` and `floor(high/B)` (window recentred when
wider than 5000), looked up with 1e-6 tolerance, sorted by price
descending.  All early `return []` paths of the Python code are the `[]`
cases here. -/
def build_ladder (c : Candle) (fp : FpMap) (B : ℚ) : List PriceLevel :=
  if B ≤ 0 ∨ fp = [] then []
  else
    let min_bucket := qmul (qInt (qfloor (qdiv c.low B))) B
    let max_bucket := qmul (qInt (qfloor (qdiv c.high B))) B
    let min_idx := qfloor (qdiv min_bucket B)
    let max_idx := qfloor (qdiv max_bucket B)
    let max_iters : Int := 5000
    let count := max_idx - min_idx + 1
    if count ≤ 0 then []
    else
      let window :=
        if max_iters < count then
          let mid := (min_idx + max_idx).fdiv 2
          let start := mid - max_iters.fdiv 2
          (start, start + max_iters - 1)
        else (min_idx, max_idx)
      let raw := (List.range (window.2 - window.1 + 1).toNat).map (fun j =>
        let level := pyRound (qmul (qInt (window.1 + j)) B) 2
        let e := get_fp_entry_with_tolerance level fp
        PriceLevel.mk level e.1 e.2)
      List.insertionSort ladderBefore raw

/-- First reconciliation stage of `build_footprint_from_map` (lines
1213-1222): proportional allocation of the deficits over the levels
weighted by buy+sell, clamped at 0 (a no-op when the ladder carries no
volume). -/
def reconcileLadderProp (tgt_buy tgt_sell : Int) (ladder : List PriceLevel) :
    List PriceLevel :=
  let cur_buy := ladderBuySum ladder
  let cur_sell := ladderSellSum ladder
  let d_buy := tgt_buy - cur_buy
  let d_sell := tgt_sell - cur_sell
  if 0 < cur_buy + cur_sell then
    let weights := ladder.map (fun it => it.buyVolume + it.sellVolume)
    let add_buys :=
      if d_buy ≠ 0 then proportional_alloc d_buy weights
      else List.replicate ladder.length 0
    let add_sells :=
      if d_sell ≠ 0 then proportional_alloc d_sell weights
      else List.replicate ladder.length 0
    (ladder.zip (add_buys.zip add_sells)).map
      (fun p => PriceLevel.mk p.1.priceLevel
        (max 0 (p.1.buyVolume + p.2.1)) (max 0 (p.1.sellVolume + p.2.2)))
  else ladder

/-- Second reconciliation stage of `build_footprint_from_map` (lines
1224-1234): any remaining residual is pushed onto the first
largest-volume level, clamped at 0. -/
def reconcileLadderFinal (tgt_buy tgt_sell : Int) (ladder1 : List PriceLevel) :
    List PriceLevel :=
  let cb := ladderBuySum ladder1
  let cs := ladderSellSum ladder1
  if ladder1 ≠ [] ∧ (cb ≠ tgt_buy ∨ cs ≠ tgt_sell) then
    let li := ladderArgmaxIdx ladder1
    let e := ladder1.getD li ⟨0, 0, 0⟩
    ladder1.set li
      (PriceLevel.mk e.priceLevel
        (max 0 (e.buyVolume + (tgt_buy - cb))) (max 0 (e.sellVolume + (tgt_sell - cs))))
  else ladder1

/-- The reconciliation stage of `build_footprint_from_map` (lines
1195-1236): skipped entirely when both deficits are zero, else the
proportional stage followed by the final largest-level adjustment. -/
def reconcileLadder (tgt_buy tgt_sell : Int) (ladder : List PriceLevel) : List PriceLevel :=
  let d_buy := tgt_buy - ladderBuySum ladder
  let d_sell := tgt_sell - ladderSellSum ladder
  if d_buy = 0 ∧ d_sell = 0 then ladder
  else reconcileLadderFinal tgt_buy tgt_sell (reconcileLadderProp tgt_buy tgt_sell ladder)

/-- `build_footprint_from_map(candle, fp_map, bucket_value)`
(lines 1138-1238). -/
def build_footprint_from_map (c : Candle) (fp : FpMap) (B : ℚ) : List PriceLevel :=
  reconcileLadder c.buy_vol c.sell_vol (build_ladder c fp B)

/-! ## Candle totals reconciliation (lines 561-631) -/

/-- The volume-totals block of
`CandleAggregator._reconcile_candle_and_footprint` (lines 575-617):
restore `buy + sell = volume`. -/
def liveVolumeTotals (vol buy sell : Int) (o cl : ℚ) : Int × Int :=
  let diff := vol - (buy + sell)
  if diff = 0 then (buy, sell)
  else if diff < 0 then
    if 0 < buy + sell then
      match proportional_alloc vol [buy, sell] with
      | [a, b] => (max 0 a, max 0 b)
      | _ => (buy, sell)
    else (0, 0)
  else
    if buy = 0 ∧ sell = 0 then
      if o < cl then (buy + diff, sell)
      else if cl < o then (buy, sell + diff)
      else (buy + diff.fdiv 2, sell + (diff - diff.fdiv 2))
    else
      if 0 < buy + sell then
        match proportional_alloc diff [buy, sell] with
        | [ab, asl] => (buy + ab, sell + asl)
        | _ => (buy, sell)
      else (buy + diff.fdiv 2, sell + (diff - diff.fdiv 2))

/-- Update the entry at the largest-volume key (first maximum in
insertion order), positive deltas added, negative deltas added then
clamped at 0 (lines 650-663). -/
def applyToLargestKey (fp : FpMap) (d_buy d_sell : Int) : FpMap :=
  let li := (List.range fp.length).foldl
    (fun best i =>
      let vi := (fp.getD i (0, 0, 0)).2.1 + (fp.getD i (0, 0, 0)).2.2
      let vb := (fp.getD best (0, 0, 0)).2.1 + (fp.getD best (0, 0, 0)).2.2
      if vb < vi then i else best) 0
  let e := fp.getD li (0, 0, 0)
  let newBuy := if 0 < d_buy then e.2.1 + d_buy
    else if d_buy < 0 then max 0 (e.2.1 + d_buy) else e.2.1
  let newSell := if 0 < d_sell then e.2.2 + d_sell
    else if d_sell < 0 then max 0 (e.2.2 + d_sell) else e.2.2
  fp.set li (e.1, newBuy, newSell)

/-- `fp_map.setdefault(poc, {...}); fp_map[poc] = {buy, sell}`
(lines 700-708): overwrite in place if the key exists, else append. -/
def fpSetPoc (fp : FpMap) (poc : ℚ) (b s : Int) : FpMap :=
  match fp.findIdx? (fun e => e.1 == poc) with
  | some i => fp.set i (poc, b, s)
  | none => fp ++ [(poc, b, s)]

/-- `CandleAggregator._reconcile_candle_and_footprint` (lines 561-711):
volume totals, delta/cum-delta update, footprint-map reconciliation, and
the final ladder build. -/
def reconcile_candle_and_footprint (cfg : AggConfig) (st : AggState) : AggState :=
  match st.candle with
  | none => st
  | some c =>
    let bs := liveVolumeTotals c.volume c.buy_vol c.sell_vol c.open_ c.close
    let newDelta := bs.1 - bs.2
    let session := st.session_cum_delta + (newDelta - c.delta)
    let c1 := { c with buy_vol := bs.1, sell_vol := bs.2,
                       delta := newDelta, cum_delta := session }
    let fp := st.footprint
    let cur_buy := (fp.map (fun e => e.2.1)).sum
    let cur_sell := (fp.map (fun e => e.2.2)).sum
    let d_buy := bs.1 - cur_buy
    let d_sell := bs.2 - cur_sell
    let fp1 :=
      if d_buy ≠ 0 ∨ d_sell ≠ 0 then
        if fp ≠ [] then applyToLargestKey fp d_buy d_sell
        else [(get_bucket_key c1.close cfg.bucket_size cfg.multiplier, bs.1, bs.2)]
      else
        if 0 < cur_buy + cur_sell then
          fp.map (fun e => (e.1, max 0 e.2.1, max 0 e.2.2))
        else
          fpSetPoc fp (get_bucket_key c1.close cfg.bucket_size cfg.multiplier) bs.1 bs.2
    let ladder := build_footprint_from_map c1 fp1 (qmul cfg.bucket_size (qInt cfg.multiplier))
    { st with candle := some { c1 with footprint := ladder },
              footprint := fp1,
              session_cum_delta := session }

/-! ## `CandleAggregator.process_tick` (lines 375-512) -/

/-- Python `a or b` over the two timestamp keys (`0` is falsy). -/
def orTruthyInt : Option Int → Option Int → Option Int
  | some t, b => if t = 0 then b else some t
  | none, b => b

/-- Validation prefix of `process_tick` (lines 376-390): symbol truthy,
ltp present and numeric, timestamp present and normalizable. -/
def tickValidate (m : Msg) : Option (ℚ × Int) :=
  match m.symbol with
  | none => none
  | some s =>
    if s = "" then none
    else
      match m.ltp with
      | none => none
      | some ltp =>
        match orTruthyInt m.exch_feed_time m.last_traded_time with
        | none => none
        | some rawTs =>
          match normalize_timestamp_to_seconds rawTs with
          | none => none
          | some ts => some (ltp, ts)

/-- The new-candle / update-candle step of `process_tick` (lines
430-504). -/
def applyCandleUpdate (cfg : AggConfig) (st : AggState) (m : Msg) (ltp : ℚ)
    (time_bin vol buy sell : Int) (bucket : ℚ) : AggState :=
  let is_new := match st.candle with
    | none => true
    | some c => c.time != time_bin
  if is_new then
    let current_trading_day := get_market_open_timestamp time_bin
    let dayReset := match st.last_trading_day with
      | none => true
      | some d => current_trading_day != d
    let session0 := if dayReset then 0 else st.session_cum_delta
    let ltd := if dayReset then some current_trading_day else st.last_trading_day
    let candle_open :=
      match m.open_price with
      | some o => if is_first_candle_of_day cfg.timeframe time_bin then o else ltp
      | none => ltp
    let candle_delta := buy - sell
    let session1 := session0 + candle_delta
    let cum_vol : Int :=
      match st.last_processed_cum_volume with
      | some v => v
      | none => vol
    { st with
      candle := some { time := time_bin, open_ := candle_open, high := ltp, low := ltp,
                       close := ltp, volume := vol, buy_vol := buy, sell_vol := sell,
                       delta := candle_delta, cum_delta := session1, footprint := [],
                       cum_volume := some cum_vol },
      footprint := [(bucket, buy, sell)],
      session_cum_delta := session1,
      last_trading_day := ltd,
      current_candle_time := some time_bin }
  else
    match st.candle with
    | none => st
    | some c =>
      let volume := c.volume + vol
      let buy_vol := c.buy_vol + buy
      let sell_vol := c.sell_vol + sell
      let new_delta := buy_vol - sell_vol
      let session := st.session_cum_delta + (new_delta - c.delta)
      let fp1 :=
        match st.footprint.findIdx? (fun e => e.1 == bucket) with
        | some i =>
          let e := st.footprint.getD i (0, 0, 0)
          st.footprint.set i (e.1, e.2.1 + buy, e.2.2 + sell)
        | none => st.footprint ++ [(bucket, buy, sell)]
      let cum_vol : Int :=
        match st.last_processed_cum_volume with
        | some v => v
        | none => c.cum_volume.getD 0 + vol
      let c1 : Candle :=
        { c with
          high := max c.high ltp
          low := min c.low ltp
          close := ltp
          volume := volume
          buy_vol := buy_vol
          sell_vol := sell_vol
          delta := new_delta
          cum_delta := session
          cum_volume := some cum_vol }
      { st with
        candle := some c1
        footprint := fp1
        session_cum_delta := session }

/-- Body of `process_tick` after the validation prefix (lines 392-512):
volume extraction, classification, dedup, candle update and
reconciliation. -/
def process_tick_core (cfg : AggConfig) (st : AggState) (m : Msg) (ltp : ℚ) (ts : Int) :
    Option Candle × AggState :=
    let seconds := interval_map cfg.timeframe
    let time_bin := calculate_aligned_time_bin ts seconds
    let volSt := determine_trade_volume st m
    let vol := volSt.1
    if vol ≤ 0 ∨ 5000000 < vol then (none, volSt.2)
    else
      let st2 : AggState := { volSt.2 with last_ltp := some ltp }
      let bs := fixupBuySell vol (calculate_aggressor_volumes m vol)
      let key : TradeKey := ⟨ts, pyRound ltp 6, vol, bs.1, bs.2, m.trade_id⟩
      if key ∈ st2.recent_trades then (none, st2)
      else
        let st3 := { st2 with recent_trades := pushRecentTrade st2.recent_trades key }
        let bucket := get_bucket_key ltp cfg.bucket_size cfg.multiplier
        let st4 := applyCandleUpdate cfg st3 m ltp time_bin vol bs.1 bs.2 bucket
        let st5 := reconcile_candle_and_footprint cfg st4
        (st5.candle, st5)

/-- `CandleAggregator.process_tick(msg)` (lines 375-512), per-symbol
projection.  Returns the emitted candle (a copy in Python) and the new
state. -/
def process_tick (cfg : AggConfig) (st : AggState) (m : Msg) : Option Candle × AggState :=
  match tickValidate m with
  | none => (none, st)
  | some (ltp, ts) => process_tick_core cfg st m ltp ts

/-- The dedup key `process_tick` computes for a message in a given
state (`none` when the flow stops before the dedup check). -/
def tickKey (st : AggState) (m : Msg) : Option TradeKey :=
  match tickValidate m with
  | none => none
  | some (ltp, ts) =>
    let volSt := determine_trade_volume st m
    let vol := volSt.1
    if vol ≤ 0 ∨ 5000000 < vol then none
    else
      let bs := fixupBuySell vol (calculate_aggressor_volumes m vol)
      some ⟨ts, pyRound ltp 6, vol, bs.1, bs.2, m.trade_id⟩

/-! ## `process_live_data` seeding bridge and guard (lines 1261-1410) -/

/-- A historical candle row passed as `hist_last_candle` (keys optional,
as in the Python dict). -/
structure HistCandle where
  time : Option Int := none
  timestamp : Option Int := none
  open_ : Option ℚ := none
  high : Option ℚ := none
  low : Option ℚ := none
  close : Option ℚ := none
  volume : Option Int := none
  buy_vol : Option Int := none
  sell_vol : Option Int := none
  delta : Option Int := none
  cum_delta : Option Int := none
  footprint : List PriceLevel := []
  cum_volume : Option Int := none
  vol_traded_today : Option Int := none
  last_cum_volume : Option Int := none
  cum_vol : Option Int := none

/-- Python `h.get('time') or h.get('timestamp') or 0` (0 is falsy). -/
def histTime (h : HistCandle) : Int :=
  match h.time with
  | some t => if t ≠ 0 then t else (match h.timestamp with | some u => u | none => 0)
  | none => (match h.timestamp with | some u => u | none => 0)

/-- Python `x or 0` for an optional numeric field. -/
def orI (a : Option Int) : Int := a.getD 0

/-- Python `float(h.get(k, 0.0) or 0.0)` for an optional float field. -/
def orQ (a : Option ℚ) : ℚ := a.getD 0

/-- Dict assignment `fp_map[key] = entry`: overwrite in place if the key
exists, else append. -/
def fpUpsert (fp : FpMap) (key : ℚ) (b s : Int) : FpMap :=
  match fp.findIdx? (fun e => e.1 == key) with
  | some i => fp.set i (key, b, s)
  | none => fp ++ [(key, b, s)]

/-- Conversion of the seeded footprint list into the internal map
(lines 1324-1347): keys rounded to 2 decimals, later duplicates
overwrite earlier entries. -/
def seedFpMap (l : List PriceLevel) : FpMap :=
  l.foldl (fun fp it => fpUpsert fp (pyRound it.priceLevel 2) it.buyVolume it.sellVolume) []

/-- First of `cum_volume`, `vol_traded_today`, `last_cum_volume`,
`cum_vol` present on the historical candle (lines 1363-1367). -/
def histCum (h : HistCandle) : Option Int :=
  match h.cum_volume with
  | some v => some v
  | none =>
    match h.vol_traded_today with
    | some v => some v
    | none =>
      match h.last_cum_volume with
      | some v => some v
      | none => h.cum_vol

/-- The seeding block of `process_live_data` (lines 1281-1380). -/
def seedFromHist (st : AggState) (h : HistCandle) : AggState :=
  let h_time := histTime h
  if h_time ≤ 0 then st
  else
    let need_seed := match st.candle with
      | none => true
      | some c => c.time != h_time
    if need_seed then
      let seeded : Candle :=
        { time := h_time
          open_ := orQ h.open_
          high := (match h.high with | some v => v | none => orQ h.close)
          low := (match h.low with | some v => v | none => orQ h.close)
          close := orQ h.close
          volume := orI h.volume
          buy_vol := orI h.buy_vol
          sell_vol := orI h.sell_vol
          delta := orI h.delta
          cum_delta := orI h.cum_delta
          footprint := h.footprint
          cum_volume := none }
      let fpm := seedFpMap h.footprint
      let st1 : AggState :=
        { st with
          candle := some seeded
          session_cum_delta := orI h.cum_delta
          current_candle_time := some h_time
          last_trading_day := some (get_market_open_timestamp h_time)
          footprint := if fpm ≠ [] then fpm else st.footprint
          last_ltp := some (orQ h.close) }
      match histCum h with
      | some hc =>
        if 0 ≤ hc then
          { st1 with
            last_processed_cum_volume := some hc
            last_cum_volume := some hc
            candle := some { seeded with cum_volume := some hc }
            recent_trades := [] }
        else st1
      | none => st1
    else st

/-- `seeded_c.get('cum_volume') or .get('vol_traded_today') or
.get('last_cum_volume') or .get('volume')` on a candle dict (line 1388).
Candle dicts never carry the two middle keys, and always carry
`volume`, so the chain yields `cum_volume` when present and nonzero,
else `volume`. -/
def seedCumOf (c : Candle) : Int :=
  match c.cum_volume with
  | some v => if v ≠ 0 then v else c.volume
  | none => c.volume

/-- `process_live_data(msg, timeframe, bucket_size, multiplier,
hist_last_candle)` (lines 1261-1410), one registry slot.  The incoming
cumulative volume is read from `vol_traded_today`, the only one of the
four keys scanned at line 1390 that occurs in tick records. -/
def process_live_data (cfg : AggConfig) (st : AggState) (m : Msg)
    (hist : Option HistCandle) : Option Candle × AggState :=
  let symOk := match m.symbol with | some s => s != "" | none => false
  let ltpOk := match m.ltp with | some v => v != 0 | none => false
  if ¬(symOk && ltpOk) then (none, st)
  else
    let st1 := match hist with
      | some h => seedFromHist st h
      | none => st
    let guard : Option Candle :=
      match st1.candle with
      | some sc =>
        match m.vol_traded_today with
        | some ic => if ic = seedCumOf sc then some sc else none
        | none => none
      | none => none
    match guard with
    | some sc => (some sc, st1)
    | none => process_tick cfg st1 m

/-! ## Historical per-row volume reconciliation
(`process_hist_data`, lines 929-992) -/

/-- The per-row buy/sell reconciliation loop body of
`process_hist_data` (lines 929-992), on one row.  The under-allocated
proportional branch uses Python float arithmetic
`int(round(diff * (buy / total)))`; it is modelled with exact rationals
and round-half-to-even, which agrees with binary64 at the dyadic points
used in the theorems below. -/
def hist_row_reconcile (vol buy sell : Int) (o cl : ℚ) : Int × Int :=
  let diff := vol - (buy + sell)
  if diff = 0 then (buy, sell)
  else if diff < 0 then
    if 0 < buy + sell then
      match proportional_alloc vol [buy, sell] with
      | [a, b] => (max 0 a, max 0 b)
      | _ => (buy, sell)
    else (0, 0)
  else
    if buy = 0 ∧ sell = 0 then
      if o < cl then (buy + diff, sell)
      else if cl < o then (buy, sell + diff)
      else (buy + diff.fdiv 2, sell + (diff - diff.fdiv 2))
    else
      if 0 < buy + sell then
        let add_buy := pyRoundHalfEven (qmul (qInt diff) (qdiv (qInt buy) (qInt (buy + sell))))
        (buy + add_buy, sell + (diff - add_buy))
      else (buy + diff.fdiv 2, sell + (diff - diff.fdiv 2))

/-! ## Exception-aware entry point (for the error-containment claim)

`process_live_data` wraps its body in `except (ValueError, TypeError):
return None` (lines 1263, 1409-1410).  In the typed model the only
raising operation reachable from a well-typed message is the timestamp
normalization, whose Python implementation `int(t / 1eK)` / `int(t)`
raises `OverflowError` on `float('inf')` (not caught by the wrapper)
and `ValueError` on `float('nan')` (caught).  Timestamps are therefore
lifted to a Python-float domain with infinities and NaN. -/

inductive PyErr where
  | valueError
  | typeError
  | overflowError
deriving DecidableEq

/-- A Python float: finite (exact rational), infinite, or NaN. -/
inductive PyNum where
  | num (q : ℚ)
  | inf
  | nan
deriving DecidableEq

/-- `int(q)` truncates toward zero. -/
def qtruncToInt (q : ℚ) : Int := q.num.tdiv q.den

/-- Python truthiness of a float (`0.0` falsy; `inf` and `nan`
truthy). -/
def pyNumTruthy : PyNum → Bool
  | .num q => q != 0
  | .inf => true
  | .nan => true

/-- Python `a or b` over the two timestamp keys. -/
def orTruthyPyNum : Option PyNum → Option PyNum → Option PyNum
  | some t, b => if pyNumTruthy t then some t else b
  | none, b => b

/-- `normalize_timestamp_to_seconds` on a float timestamp, with its
raising behaviour: all comparisons with NaN are false so `int(nan)`
raises `ValueError`; `inf ≥ 1e18` holds so `int(inf / 1e9) = int(inf)`
raises `OverflowError`. -/
def normalize_timestamp_exc : PyNum → Except PyErr (Option Int)
  | .num q =>
    if q ≤ 0 then .ok none
    else if qInt (10 ^ 18) ≤ q then .ok (some (qtruncToInt (qdiv q (qInt (10 ^ 9)))))
    else if qInt (10 ^ 15) ≤ q then .ok (some (qtruncToInt (qdiv q (qInt (10 ^ 6)))))
    else if qInt (10 ^ 12) ≤ q then .ok (some (qtruncToInt (qdiv q (qInt (10 ^ 3)))))
    else .ok (some (qtruncToInt q))
  | .inf => .error .overflowError
  | .nan => .error .valueError

/-- A tick message whose timestamp fields range over Python floats. -/
structure MsgX where
  base : Msg := {}
  exch_feed_time : Option PyNum := none
  last_traded_time : Option PyNum := none

/-- Validation prefix of `process_tick` over the float-timestamp
domain. -/
def tickValidateExc (m : MsgX) : Except PyErr (Option (ℚ × Int)) :=
  match m.base.symbol with
  | none => .ok none
  | some s =>
    if s = "" then .ok none
    else
      match m.base.ltp with
      | none => .ok none
      | some ltp =>
        match orTruthyPyNum m.exch_feed_time m.last_traded_time with
        | none => .ok none
        | some rawTs =>
          match normalize_timestamp_exc rawTs with
          | .error e => .error e
          | .ok none => .ok none
          | .ok (some ts) => .ok (some (ltp, ts))

/-- `process_tick` over the float-timestamp domain: the body after
validation raises nothing on well-typed values (its only internal
`try/except` guards are unreachable in the typed model). -/
def process_tick_exc (cfg : AggConfig) (st : AggState) (m : MsgX) :
    Except PyErr (Option Candle × AggState) :=
  match tickValidateExc m with
  | .error e => .error e
  | .ok none => .ok (none, st)
  | .ok (some (ltp, ts)) => .ok (process_tick_core cfg st m.base ltp ts)

/-- The `except (ValueError, TypeError): return None` wrapper of
`process_live_data` (lines 1263, 1409-1410). -/
def tryExceptVT (x : Except PyErr (Option Candle × AggState)) (st : AggState) :
    Except PyErr (Option Candle × AggState) :=
  match x with
  | .error .valueError => .ok (none, st)
  | .error .typeError => .ok (none, st)
  | other => other

/-- `process_live_data` over the float-timestamp domain, with the
exception (non-)containment of the Python code made explicit. -/
def process_live_data_exc (cfg : AggConfig) (st : AggState) (m : MsgX)
    (hist : Option HistCandle) : Except PyErr (Option Candle × AggState) :=
  tryExceptVT
    (let symOk := match m.base.symbol with | some s => s != "" | none => false
     let ltpOk := match m.base.ltp with | some v => v != 0 | none => false
     if ¬(symOk && ltpOk) then .ok (none, st)
     else
       let st1 := match hist with
         | some h => seedFromHist st h
         | none => st
       let guard : Option Candle :=
         match st1.candle with
         | some sc =>
           match m.base.vol_traded_today with
           | some ic => if ic = seedCumOf sc then some sc else none
           | none => none
         | none => none
       match guard with
       | some sc => .ok (some sc, st1)
       | none => process_tick_exc cfg st1 m) st

/-! ## Allocator analysis -/

/-- Exact rational share of index `i` in the main branch of
`_proportional_alloc`. -/
def allocShare (total : Int) (w : List Int) (i : Nat) : ℚ :=
  qdiv (qInt (total * w.getD i 0)) (qInt w.sum)

def allocFloor (total : Int) (w : List Int) (i : Nat) : Int :=
  qfloor (allocShare total w i)

def allocRem (total : Int) (w : List Int) : Int :=
  total - ((List.range w.length).map (allocFloor total w)).sum

def allocPairs (total : Int) (w : List Int) : List (Nat × ℚ) :=
  (List.range w.length).map
    (fun i => (i, qsub (allocShare total w i) (qInt (allocFloor total w i))))

def allocSorted (total : Int) (w : List Int) : List (Nat × ℚ) :=
  List.insertionSort allocBefore (allocPairs total w)

/-- The indices receiving one extra unit. -/
def allocBump (total : Int) (w : List Int) : List Nat :=
  ((allocSorted total w).take (allocRem total w).toNat).map Prod.fst

/-- Fractional part of the exact share. -/
def allocFrac (total : Int) (w : List Int) (i : Nat) : ℚ :=
  allocShare total w i - ((allocFloor total w i : Int) : ℚ)

/-- Fixture for the footprint-conservation counterexample: a candle
demanding buy 0 / sell 10 over a map holding buy 10 / sell 10. -/
def candleFixtureA : Candle :=
  { time := 0, open_ := 100, high := 105, low := 100, close := 105, volume := 10,
    buy_vol := 0, sell_vol := 10, delta := -10, cum_delta := -10, footprint := [],
    cum_volume := none }

def fpFixtureA : FpMap := [(100, 10, 0), (105, 0, 10)]

/-- Fixture for the conservation witness: one level under-allocated by
two units of buy volume. -/
def candleFixtureB : Candle :=
  { time := 0, open_ := 100, high := 100, low := 100, close := 100, volume := 22,
    buy_vol := 12, sell_vol := 10, delta := 2, cum_delta := 2, footprint := [],
    cum_volume := none }

def fpFixtureB : FpMap := [(100, 10, 10)]

def cfgW : AggConfig := ⟨"5m", 5, 1⟩

def msgW : Msg := { symbol := some "X", ltp := some 100, exch_feed_time := some 120,
                    last_traded_qty := some 10, ch := some 0 }

/-- The candle `process_tick` emits for `msgW` from the initial state. -/
def tickCandleW : Candle :=
  { time := 0, open_ := 100, high := 100, low := 100, close := 100, volume := 10,
    buy_vol := 5, sell_vol := 5, delta := 0, cum_delta := 0,
    footprint := [⟨100, 5, 5⟩], cum_volume := some 10 }

/-- Prior-day state for the day-reset witness: a candle from the
previous trading day with a large accumulated session delta. -/
def prevC8 : Candle :=
  { time := 19800, open_ := 90, high := 90, low := 90, close := 90, volume := 7,
    buy_vol := 4, sell_vol := 3, delta := 1, cum_delta := 1200, footprint := [],
    cum_volume := some 7 }

def stW8 : AggState :=
  { candle := some prevC8, session_cum_delta := 1200,
    last_trading_day := some (get_market_open_timestamp 19800),
    current_candle_time := some 19800 }

def msgW8 : Msg := { symbol := some "Y", ltp := some 101, exch_feed_time := some 119700,
                     last_traded_qty := some 3, ch := some 1 }

/-- The candle emitted for `msgW8` from `stW8`: first candle of the new
trading day. -/
def tickCandleW8 : Candle :=
  { time := 119700, open_ := 101, high := 101, low := 101, close := 101, volume := 3,
    buy_vol := 3, sell_vol := 0, delta := 3, cum_delta := 3,
    footprint := [⟨100, 3, 0⟩], cum_volume := some 3 }

def kC9 : TradeKey := ⟨200, 100, 5, 5, 0, none⟩

def s0C9 : AggState :=
  { recent_trades := [kC9], last_cum_volume := some 100,
    last_processed_cum_volume := some 100 }

def mC9 : Msg := { symbol := some "X", ltp := some 100, exch_feed_time := some 200,
                   vol_traded_today := some 105, ch := some 1 }

def histC4 : HistCandle :=
  { time := some 300, open_ := some 100, high := some 100, low := some 100,
    close := some 100, volume := some 50, buy_vol := some 25, sell_vol := some 25,
    delta := some 0, cum_delta := some 0, cum_volume := some 100 }

/-- The candle `seedFromHist` builds from `histC4`. -/
def seededC4 : Candle :=
  { time := 300, open_ := 100, high := 100, low := 100, close := 100, volume := 50,
    buy_vol := 25, sell_vol := 25, delta := 0, cum_delta := 0, footprint := [],
    cum_volume := some 100 }

/-- A genuine trade: cumulative volume equal to the seed, but a
per-trade `last_traded_qty` present. -/
def mC4 : Msg := { symbol := some "X", ltp := some 100, exch_feed_time := some 600,
                   vol_traded_today := some 100, last_traded_qty := some 5 }

/-- A seeding echo: cumulative volume equal to the seed and no
`last_traded_qty`. -/
def mC4b : Msg := { symbol := some "X", ltp := some 100, exch_feed_time := some 600,
                    vol_traded_today := some 100 }

/-- A finite-timestamp tick for the containment witness. -/
def mC6ok : MsgX := { base := { symbol := some "X", ltp := some 100 },
                      exch_feed_time := some (PyNum.num 120) }

def mC6inf : MsgX := { base := { symbol := some "X", ltp := some 100 },
                       exch_feed_time := some PyNum.inf }

/-! ## Theorems -/

theorem qInt_eq (i : Int) : qInt i = (i : ℚ) :=
  Rat.ext (by simp [qInt, Rat.intCast_num]) (by simp [qInt, Rat.intCast_den])

theorem qmul_eq (a b : ℚ) : qmul a b = a * b := by
  rw [qmul, Rat.divInt_eq_div]
  push_cast
  conv_rhs => rw [← Rat.num_div_den a, ← Rat.num_div_den b]
  rw [div_mul_div_comm]

theorem qadd_eq (a b : ℚ) : qadd a b = a + b := by
  have ha : ((a.den : ℚ)) ≠ 0 := by positivity
  have hb : ((b.den : ℚ)) ≠ 0 := by positivity
  rw [qadd, Rat.divInt_eq_div]
  push_cast
  conv_rhs => rw [← Rat.num_div_den a, ← Rat.num_div_den b]
  rw [div_add_div _ _ ha hb]
  ring_nf

theorem qsub_eq (a b : ℚ) : qsub a b = a - b := by
  have ha : ((a.den : ℚ)) ≠ 0 := by positivity
  have hb : ((b.den : ℚ)) ≠ 0 := by positivity
  rw [qsub, Rat.divInt_eq_div]
  push_cast
  conv_rhs => rw [← Rat.num_div_den a, ← Rat.num_div_den b]
  rw [div_sub_div _ _ ha hb]
  ring_nf

theorem qdiv_eq (a b : ℚ) : qdiv a b = a / b := by
  rcases eq_or_ne b 0 with rfl | hb
  · simp [qdiv, Rat.divInt_eq_div]
  · have ha : ((a.den : ℚ)) ≠ 0 := by positivity
    have hbd : ((b.den : ℚ)) ≠ 0 := by positivity
    have hbn : ((b.num : ℚ)) ≠ 0 := by
      exact_mod_cast Rat.num_ne_zero.mpr hb
    rw [qdiv, Rat.divInt_eq_div]
    push_cast
    conv_rhs => rw [← Rat.num_div_den a, ← Rat.num_div_den b]
    field_simp

theorem qfloor_eq (a : ℚ) : qfloor a = ⌊a⌋ := by
  rw [qfloor, Int.fdiv_eq_ediv _ (by exact_mod_cast Nat.zero_le a.den), Rat.floor_def]

example : proportional_alloc 10 [1, 1, 1] = [4, 3, 3] := by decide

example : proportional_alloc 1 [1, 1] = [1, 0] := by decide

example : proportional_alloc (-10) [1, 2] = [0, 0] := by decide

example : proportional_alloc 7 [0, 0] = [4, 3] := by decide

/-! ## General list helpers -/

theorem sum_map_range {M : Type} [AddCommMonoid M] (f : Nat → M) (n : Nat) :
    ((List.range n).map f).sum = ∑ i ∈ Finset.range n, f i := by
  induction n with
  | zero => simp
  | succ n ih => rw [List.range_succ, List.map_append, List.sum_append,
      Finset.sum_range_succ, ih]; simp

theorem map_getD_range (w : List Int) :
    (List.range w.length).map (fun i => w.getD i 0) = w := by
  induction w with
  | nil => simp
  | cons a l ih =>
    rw [List.length_cons, List.range_succ_eq_map, List.map_cons, List.map_map]
    refine congrArg₂ List.cons rfl ?_
    have h2 : List.map ((fun i => (a :: l).getD i 0) ∘ Nat.succ) (List.range l.length)
        = List.map (fun i => l.getD i 0) (List.range l.length) :=
      List.map_congr_left (fun i _ => rfl)
    rw [h2, ih]

theorem alloc_main_eq (total : Int) (w : List Int) (h2 : 0 < total) (h3 : 0 < w.sum) :
    proportional_alloc total w =
      (List.range w.length).map
        (fun i => allocFloor total w i + if i ∈ allocBump total w then 1 else 0) := by
  have hne : ¬w.length = 0 := by
    intro h0
    rw [List.length_eq_zero.mp h0] at h3
    simp at h3
  unfold proportional_alloc
  rw [if_neg hne, if_neg (by omega), if_neg (by omega)]
  rfl

theorem allocShare_eq (total : Int) (w : List Int) (i : Nat) :
    allocShare total w i = ((total * w.getD i 0 : Int) : ℚ) / ((w.sum : Int) : ℚ) := by
  rw [allocShare, qdiv_eq, qInt_eq, qInt_eq]

theorem allocFloor_eq (total : Int) (w : List Int) (i : Nat) :
    allocFloor total w i = ⌊allocShare total w i⌋ := by
  rw [allocFloor, qfloor_eq]

theorem sum_getD_range (w : List Int) :
    ∑ i ∈ Finset.range w.length, w.getD i 0 = w.sum := by
  rw [← sum_map_range, map_getD_range]

theorem allocShare_sum (total : Int) (w : List Int) (h3 : 0 < w.sum) :
    ∑ i ∈ Finset.range w.length, allocShare total w i = (total : ℚ) := by
  have hs : ((w.sum : ℚ)) ≠ 0 := by exact_mod_cast h3.ne'
  have hsum : ∑ i ∈ Finset.range w.length, ((w.getD i 0 : Int) : ℚ) = ((w.sum : Int) : ℚ) := by
    rw [← Int.cast_sum]
    exact_mod_cast congrArg (Int.cast : Int → ℚ) (sum_getD_range w)
  have step : ∀ i, allocShare total w i
      = (total : ℚ) * ((w.getD i 0 : Int) : ℚ) / ((w.sum : Int) : ℚ) := by
    intro i
    rw [allocShare_eq]
    push_cast
    ring
  simp only [step]
  rw [← Finset.sum_div, ← Finset.mul_sum, hsum, mul_div_assoc, div_self hs, mul_one]

theorem allocFloor_cast_le (total : Int) (w : List Int) (i : Nat) :
    ((allocFloor total w i : Int) : ℚ) ≤ allocShare total w i := by
  rw [allocFloor_eq]
  exact Int.floor_le _

theorem allocShare_lt_floor_add_one (total : Int) (w : List Int) (i : Nat) :
    allocShare total w i < ((allocFloor total w i : Int) : ℚ) + 1 := by
  rw [allocFloor_eq]
  exact Int.lt_floor_add_one _

theorem allocRem_cast (total : Int) (w : List Int) (h3 : 0 < w.sum) :
    ((allocRem total w : Int) : ℚ)
      = ∑ i ∈ Finset.range w.length, (allocShare total w i - ((allocFloor total w i : Int) : ℚ)) := by
  rw [allocRem, sum_map_range]
  push_cast
  rw [Finset.sum_sub_distrib, allocShare_sum total w h3]

theorem allocRem_nonneg (total : Int) (w : List Int) (h3 : 0 < w.sum) :
    0 ≤ allocRem total w := by
  have h : (0 : ℚ) ≤ ((allocRem total w : Int) : ℚ) := by
    rw [allocRem_cast total w h3]
    exact Finset.sum_nonneg (fun i _ => sub_nonneg.mpr (allocFloor_cast_le total w i))
  exact_mod_cast h

theorem allocRem_lt_length (total : Int) (w : List Int) (hne : w ≠ []) (h3 : 0 < w.sum) :
    allocRem total w < w.length := by
  have hpos : 0 < w.length := List.length_pos.mpr hne
  have h : ((allocRem total w : Int) : ℚ) < (w.length : ℚ) := by
    rw [allocRem_cast total w h3]
    calc ∑ i ∈ Finset.range w.length, (allocShare total w i - ((allocFloor total w i : Int) : ℚ))
        < ∑ _i ∈ Finset.range w.length, (1 : ℚ) := by
          refine Finset.sum_lt_sum_of_nonempty ?_ ?_
          · exact Finset.nonempty_range_iff.mpr hpos.ne'
          · intro i _
            have := allocShare_lt_floor_add_one total w i
            linarith
      _ = (w.length : ℚ) := by simp
  exact_mod_cast h

theorem allocPairs_length (total : Int) (w : List Int) :
    (allocPairs total w).length = w.length := by
  simp [allocPairs]

theorem allocSorted_length (total : Int) (w : List Int) :
    (allocSorted total w).length = w.length := by
  rw [allocSorted, List.length_insertionSort, allocPairs_length]

theorem allocSorted_perm (total : Int) (w : List Int) :
    (allocSorted total w).Perm (allocPairs total w) :=
  List.perm_insertionSort _ _

theorem allocPairs_map_fst (total : Int) (w : List Int) :
    (allocPairs total w).map Prod.fst = List.range w.length := by
  rw [allocPairs, List.map_map]
  exact List.map_id _

theorem allocSorted_fst_perm (total : Int) (w : List Int) :
    ((allocSorted total w).map Prod.fst).Perm (List.range w.length) := by
  rw [← allocPairs_map_fst total w]
  exact (allocSorted_perm total w).map _

theorem allocSorted_fst_nodup (total : Int) (w : List Int) :
    ((allocSorted total w).map Prod.fst).Nodup :=
  ((allocSorted_fst_perm total w).nodup_iff).mpr (List.nodup_range _)

theorem allocBump_eq_take (total : Int) (w : List Int) :
    allocBump total w = ((allocSorted total w).map Prod.fst).take (allocRem total w).toNat := by
  rw [allocBump, List.map_take]

theorem allocBump_nodup (total : Int) (w : List Int) : (allocBump total w).Nodup := by
  rw [allocBump_eq_take]
  exact (List.take_sublist _ _).nodup (allocSorted_fst_nodup total w)

theorem allocBump_mem_lt (total : Int) (w : List Int) (i : Nat)
    (hi : i ∈ allocBump total w) : i < w.length := by
  rw [allocBump_eq_take] at hi
  have hmem : i ∈ (allocSorted total w).map Prod.fst := List.mem_of_mem_take hi
  have := (allocSorted_fst_perm total w).mem_iff.mp hmem
  exact List.mem_range.mp this

theorem allocBump_length (total : Int) (w : List Int)
    (hle : allocRem total w ≤ w.length) :
    (allocBump total w).length = (allocRem total w).toNat := by
  rw [allocBump_eq_take, List.length_take, List.length_map, allocSorted_length]
  exact min_eq_left (Int.toNat_le.mpr hle)

theorem sum_ite_mem_list (n : Nat) (l : List Nat) (hnd : l.Nodup) (hlt : ∀ i ∈ l, i < n) :
    (∑ i ∈ Finset.range n, if i ∈ l then (1 : Int) else 0) = (l.length : Int) := by
  classical
  have hfil : (Finset.range n).filter (fun i => i ∈ l) = l.toFinset := by
    ext i
    simp only [Finset.mem_filter, Finset.mem_range, List.mem_toFinset]
    exact ⟨fun h => h.2, fun h => ⟨hlt i h, h⟩⟩
  rw [Finset.sum_boole, hfil, List.toFinset_card_of_nodup hnd]

theorem sum_ite_lt_int (n : Nat) (r : Int) (h0 : 0 ≤ r) (hr : r ≤ n) :
    (∑ i ∈ Finset.range n, if (i : Int) < r then (1 : Int) else 0) = r := by
  classical
  have hfil : (Finset.range n).filter (fun i : Nat => ((i : Int) < r)) = Finset.range r.toNat := by
    ext i
    simp only [Finset.mem_filter, Finset.mem_range]
    omega
  rw [Finset.sum_boole, hfil, Finset.card_range]
  omega

theorem proportional_alloc_length (total : Int) (w : List Int) :
    (proportional_alloc total w).length = w.length := by
  simp only [proportional_alloc]
  split_ifs with h1 h2 h3
  · rw [List.length_nil, h1]
  · rw [List.length_replicate]
  · rw [List.length_map, List.length_range]
  · rw [List.length_map, List.length_range]

theorem proportional_alloc_sum (total : Int) (w : List Int) (h0 : 0 ≤ total) (hw : w ≠ []) :
    (proportional_alloc total w).sum = total := by
  have hn0 : w.length ≠ 0 := fun h => hw (List.length_eq_zero.mp h)
  have hnpos : 0 < w.length := Nat.pos_of_ne_zero hn0
  rcases eq_or_lt_of_le h0 with rfl | hpos
  · simp only [proportional_alloc]
    rw [if_neg hn0, if_pos le_rfl]
    simp
  · by_cases hs : w.sum ≤ 0
    · -- even-split branch
      simp only [proportional_alloc]
      rw [if_neg hn0, if_neg (by omega), if_pos hs]
      have hradd : (w.length : Int) * (total / w.length) + total % w.length = total :=
        Int.ediv_add_emod total w.length
      have hfd : total.fdiv (w.length : Int) = total / w.length :=
        Int.fdiv_eq_ediv total (by positivity)
      have hrem : total - total.fdiv (w.length : Int) * (w.length : Int) = total % w.length := by
        rw [hfd]
        have hc : total / (w.length : Int) * (w.length : Int)
            = (w.length : Int) * (total / (w.length : Int)) := mul_comm _ _
        omega
      rw [sum_map_range, Finset.sum_add_distrib, Finset.sum_const, Finset.card_range, hrem]
      rw [sum_ite_lt_int w.length (total % w.length)
        (Int.emod_nonneg total (by exact_mod_cast hn0))
        (le_of_lt (Int.emod_lt_of_pos total (by exact_mod_cast hnpos)))]
      rw [hfd]
      simp only [nsmul_eq_mul]
      omega
    · push_neg at hs
      rw [alloc_main_eq total w hpos hs]
      have hremle : allocRem total w ≤ w.length :=
        le_of_lt (allocRem_lt_length total w hw hs)
      have hremnn : 0 ≤ allocRem total w := allocRem_nonneg total w hs
      rw [sum_map_range, Finset.sum_add_distrib]
      rw [sum_ite_mem_list w.length (allocBump total w) (allocBump_nodup total w)
        (fun i hi => allocBump_mem_lt total w i hi)]
      rw [allocBump_length total w hremle]
      have hfl : ∑ i ∈ Finset.range w.length, allocFloor total w i
          = total - allocRem total w := by
        have := allocRem  -- definitional link
        rw [show (∑ i ∈ Finset.range w.length, allocFloor total w i)
            = ((List.range w.length).map (allocFloor total w)).sum from (sum_map_range _ _).symm]
        rw [allocRem]
        ring
      rw [hfl]
      omega

theorem getD_nonneg (w : List Int) (hw : ∀ x ∈ w, 0 ≤ x) (i : Nat) : 0 ≤ w.getD i 0 := by
  rw [List.getD_eq_getElem?_getD]
  cases hg : w[i]? with
  | none => simp
  | some a =>
    have ha : a ∈ w := List.getElem?_mem hg
    simpa using hw a ha

theorem getD_map_range {α : Type} [Inhabited α] (f : Nat → α) (n i : Nat) (hi : i < n) (d : α) :
    ((List.range n).map f).getD i d = f i := by
  rw [List.getD_eq_getElem?_getD, List.getElem?_map, List.getElem?_range hi]
  rfl

theorem allocFrac_nonneg (total : Int) (w : List Int) (i : Nat) : 0 ≤ allocFrac total w i :=
  sub_nonneg.mpr (allocFloor_cast_le total w i)

theorem allocFrac_lt_one (total : Int) (w : List Int) (i : Nat) : allocFrac total w i < 1 := by
  have := allocShare_lt_floor_add_one total w i
  rw [allocFrac]
  linarith

theorem allocPairs_eq (total : Int) (w : List Int) :
    allocPairs total w = (List.range w.length).map (fun i => (i, allocFrac total w i)) := by
  simp [allocPairs, allocFrac, qsub_eq, qInt_eq]

theorem mem_allocPairs (total : Int) (w : List Int) (p : Nat × ℚ)
    (hp : p ∈ allocPairs total w) : p.1 < w.length ∧ p = (p.1, allocFrac total w p.1) := by
  rw [allocPairs_eq] at hp
  rcases List.mem_map.mp hp with ⟨i, hi, rfl⟩
  exact ⟨List.mem_range.mp hi, rfl⟩

theorem pair_mem_allocPairs (total : Int) (w : List Int) (i : Nat) (hi : i < w.length) :
    (i, allocFrac total w i) ∈ allocPairs total w := by
  rw [allocPairs_eq]
  exact List.mem_map.mpr ⟨i, List.mem_range.mpr hi, rfl⟩

theorem allocSorted_sorted (total : Int) (w : List Int) :
    List.Sorted allocBefore (allocSorted total w) :=
  List.sorted_insertionSort allocBefore (allocPairs total w)

theorem allocTake_drop_rel (total : Int) (w : List Int) (k : Nat) (a b : Nat × ℚ)
    (ha : a ∈ (allocSorted total w).take k) (hb : b ∈ (allocSorted total w).drop k) :
    allocBefore a b := by
  have hsort : List.Pairwise allocBefore
      ((allocSorted total w).take k ++ (allocSorted total w).drop k) := by
    rw [List.take_append_drop]
    exact allocSorted_sorted total w
  exact (List.pairwise_append.mp hsort).2.2 a ha b hb

theorem mem_take_of_mem_bump (total : Int) (w : List Int) (i : Nat)
    (hi : i ∈ allocBump total w) :
    (i, allocFrac total w i) ∈ (allocSorted total w).take (allocRem total w).toNat := by
  rcases List.mem_map.mp hi with ⟨p, hp, rfl⟩
  have hp2 : p ∈ allocSorted total w := List.mem_of_mem_take hp
  have hp3 : p ∈ allocPairs total w := (allocSorted_perm total w).mem_iff.mp hp2
  have := (mem_allocPairs total w p hp3).2
  rwa [← this]

theorem mem_drop_of_not_bump (total : Int) (w : List Int) (j : Nat)
    (hj : j < w.length) (hnb : j ∉ allocBump total w) :
    (j, allocFrac total w j) ∈ (allocSorted total w).drop (allocRem total w).toNat := by
  have hmem : (j, allocFrac total w j) ∈ allocSorted total w :=
    (allocSorted_perm total w).mem_iff.mpr (pair_mem_allocPairs total w j hj)
  rw [← List.take_append_drop (allocRem total w).toNat (allocSorted total w)] at hmem
  rcases List.mem_append.mp hmem with h | h
  · exfalso
    exact hnb (List.mem_map.mpr ⟨(j, allocFrac total w j), h, rfl⟩)
  · exact h

/-- Every bumped index beats every non-bumped index: strictly larger
fractional part, or an equal fractional part at a lower index. -/
theorem allocBump_beats (total : Int) (w : List Int) (i j : Nat)
    (hi : i ∈ allocBump total w) (hj : j < w.length) (hnb : j ∉ allocBump total w) :
    allocFrac total w j < allocFrac total w i ∨
      (allocFrac total w i = allocFrac total w j ∧ i < j) := by
  have hrel := allocTake_drop_rel total w (allocRem total w).toNat _ _
    (mem_take_of_mem_bump total w i hi) (mem_drop_of_not_bump total w j hj hnb)
  have hij : i ≠ j := fun h => hnb (h ▸ hi)
  rcases hrel with h | ⟨h1, h2⟩
  · exact Or.inl h
  · exact Or.inr ⟨h1, lt_of_le_of_ne h2 hij⟩

theorem list_sum_lt_length (l : List ℚ) (h : ∀ x ∈ l, x < 1) (hne : l ≠ []) :
    l.sum < (l.length : ℚ) := by
  induction l with
  | nil => exact absurd rfl hne
  | cons a t ih =>
    rcases eq_or_ne t [] with rfl | hte
    · simpa using h a (List.mem_cons_self a [])
    · have ha := h a (List.mem_cons_self a t)
      have ht := ih (fun x hx => h x (List.mem_cons_of_mem a hx)) hte
      rw [List.sum_cons, List.length_cons]
      push_cast
      linarith

theorem allocSorted_snd_sum (total : Int) (w : List Int) (h3 : 0 < w.sum) :
    (((allocSorted total w).map Prod.snd).sum) = ((allocRem total w : Int) : ℚ) := by
  have hperm : ((allocSorted total w).map Prod.snd).Perm ((allocPairs total w).map Prod.snd) :=
    (allocSorted_perm total w).map _
  rw [hperm.sum_eq, allocPairs_eq, List.map_map]
  have hmap : (List.range w.length).map (Prod.snd ∘ fun i => (i, allocFrac total w i))
      = (List.range w.length).map (fun i => allocFrac total w i) :=
    List.map_congr_left (fun i _ => rfl)
  rw [hmap, sum_map_range, allocRem_cast total w h3]
  rfl

theorem allocBump_frac_pos (total : Int) (w : List Int) (hne : w ≠ [])
    (h2 : 0 < total) (h3 : 0 < w.sum) (i : Nat) (hi : i ∈ allocBump total w) :
    0 < allocFrac total w i := by
  by_contra hle
  push_neg at hle
  have hfi : allocFrac total w i = 0 := le_antisymm hle (allocFrac_nonneg total w i)
  have hremnn : 0 ≤ allocRem total w := allocRem_nonneg total w h3
  have hremlt : allocRem total w < w.length := allocRem_lt_length total w hne h3
  have hkn : (allocRem total w).toNat ≤ (allocSorted total w).length := by
    rw [allocSorted_length]
    omega
  have hdrop0 : ∀ q ∈ (allocSorted total w).drop (allocRem total w).toNat, q.2 = 0 := by
    intro q hq
    have hrel := allocTake_drop_rel total w (allocRem total w).toNat _ q
      (mem_take_of_mem_bump total w i hi) hq
    have hq_pairs : q ∈ allocPairs total w :=
      (allocSorted_perm total w).mem_iff.mp (List.mem_of_mem_drop hq)
    have hq2 : q.2 = allocFrac total w q.1 := by
      have h := (mem_allocPairs total w q hq_pairs).2
      rw [h]
    have hq_nonneg : 0 ≤ q.2 := by
      rw [hq2]
      exact allocFrac_nonneg total w q.1
    rcases hrel with h | ⟨h, _⟩
    · have h2q : q.2 < allocFrac total w i := h
      rw [hfi] at h2q
      linarith
    · have h2q : allocFrac total w i = q.2 := h
      rw [hfi] at h2q
      exact h2q.symm
  have hsplit : (((allocSorted total w).take (allocRem total w).toNat).map Prod.snd).sum
      + (((allocSorted total w).drop (allocRem total w).toNat).map Prod.snd).sum
      = ((allocRem total w : Int) : ℚ) := by
    rw [← List.sum_append, ← List.map_append, List.take_append_drop]
    exact allocSorted_snd_sum total w h3
  have hdrop_sum : (((allocSorted total w).drop (allocRem total w).toNat).map Prod.snd).sum
      = 0 := by
    apply List.sum_eq_zero
    intro x hx
    rcases List.mem_map.mp hx with ⟨q, hq, rfl⟩
    exact hdrop0 q hq
  have htake_sum : (((allocSorted total w).take (allocRem total w).toNat).map Prod.snd).sum
      = ((allocRem total w : Int) : ℚ) := by
    rw [hdrop_sum] at hsplit
    linarith
  have htklen : (((allocSorted total w).take (allocRem total w).toNat).map Prod.snd).length
      = (allocRem total w).toNat := by
    rw [List.length_map, List.length_take]
    exact min_eq_left hkn
  have htake_ne : ((allocSorted total w).take (allocRem total w).toNat).map Prod.snd ≠ [] := by
    intro h
    have := mem_take_of_mem_bump total w i hi
    rw [List.eq_nil_iff_forall_not_mem] at h
    exact h _ (List.mem_map.mpr ⟨_, this, rfl⟩)
  have hlt1 : ∀ x ∈ ((allocSorted total w).take (allocRem total w).toNat).map Prod.snd,
      x < 1 := by
    intro x hx
    rcases List.mem_map.mp hx with ⟨q, hq, rfl⟩
    have hq_pairs : q ∈ allocPairs total w :=
      (allocSorted_perm total w).mem_iff.mp (List.mem_of_mem_take hq)
    have hq2 : q.2 = allocFrac total w q.1 := by
      have h := (mem_allocPairs total w q hq_pairs).2
      rw [h]
    rw [hq2]
    exact allocFrac_lt_one total w q.1
  have := list_sum_lt_length _ hlt1 htake_ne
  rw [htake_sum, htklen] at this
  have hcast : (((allocRem total w).toNat : Nat) : ℚ) = ((allocRem total w : Int) : ℚ) := by
    have := Int.toNat_of_nonneg hremnn
    exact_mod_cast congrArg (Int.cast : Int → ℚ) this
  rw [hcast] at this
  exact lt_irrefl _ this

theorem allocFloor_zero (w : List Int) (i : Nat) : allocFloor 0 w i = 0 := by
  rw [allocFloor_eq, allocShare_eq]
  norm_num

theorem allocBump_zero (w : List Int) : allocBump 0 w = [] := by
  have hrem : allocRem 0 w = 0 := by
    rw [allocRem]
    have hz : ∀ x ∈ (List.range w.length).map (allocFloor 0 w), x = 0 := by
      intro x hx
      rcases List.mem_map.mp hx with ⟨i, _, rfl⟩
      exact allocFloor_zero w i
    rw [List.sum_eq_zero hz]
    rfl
  rw [allocBump, hrem]
  rfl

theorem proportional_alloc_getD_zero (w : List Int) (hne : ¬w.length = 0) (i : Nat) :
    (proportional_alloc 0 w).getD i 0 = 0 := by
  simp only [proportional_alloc, if_neg hne, if_pos (le_refl (0 : Int))]
  rw [List.getD_eq_getElem?_getD, List.getElem?_replicate]
  by_cases h : i < w.length <;> simp [h]

theorem alloc_getD (total : Int) (w : List Int) (h0 : 0 ≤ total) (h3 : 0 < w.sum)
    (i : Nat) (hi : i < w.length) :
    (proportional_alloc total w).getD i 0
      = allocFloor total w i + if i ∈ allocBump total w then 1 else 0 := by
  rcases eq_or_lt_of_le h0 with rfl | hpos
  · rw [proportional_alloc_getD_zero w (by omega) i, allocFloor_zero, allocBump_zero]
    simp
  · rw [alloc_main_eq total w hpos h3, getD_map_range _ _ _ hi]

/-- C10: for every total ≤ 0 (negatives included, which the spec's
unsigned signature excludes) and every weight list, `_proportional_alloc`
returns a list of `len(weights)` zeros rather than failing. -/
theorem proportional_alloc_nonpos (total : Int) (w : List Int) (h : total ≤ 0) :
    proportional_alloc total w = List.replicate w.length 0 := by
  rcases eq_or_ne w.length 0 with h0 | h0
  · simp only [proportional_alloc, if_pos h0]
    rw [h0]
    rfl
  · simp only [proportional_alloc, if_neg h0, if_pos h]

theorem proportional_alloc_nonpos_witness :
    (-3 : Int) ≤ 0 ∧ proportional_alloc (-3) [2, 5] = List.replicate 2 0 :=
  ⟨by decide, proportional_alloc_nonpos (-3) [2, 5] (by decide)⟩

/-- C3: for total T ≥ 0 and non-negative weights with positive sum,
`_proportional_alloc` (a pure function, hence deterministic) returns a
list of the same length summing to T, gives each index its floor share
`⌊T·wᵢ/Σw⌋` plus at most one extra unit, hands the extra units to the
indices with the strictly largest fractional parts with ties broken by
the lower index, stays below `⌈T·wᵢ/Σw⌉`, and in particular maps
`(10, [1,1,1])` to `[4,3,3]`. -/
theorem proportional_alloc_correct :
    (∀ (total : Int) (w : List Int), 0 ≤ total → (∀ x ∈ w, 0 ≤ x) → 0 < w.sum →
      ((proportional_alloc total w).length = w.length
        ∧ (proportional_alloc total w).sum = total
        ∧ (∀ i, i < w.length →
            (proportional_alloc total w).getD i 0 = allocFloor total w i
              ∨ (proportional_alloc total w).getD i 0 = allocFloor total w i + 1)
        ∧ (∀ i j, i < w.length → j < w.length →
            (proportional_alloc total w).getD i 0 = allocFloor total w i + 1 →
            (proportional_alloc total w).getD j 0 = allocFloor total w j →
            (allocFrac total w j < allocFrac total w i
              ∨ (allocFrac total w i = allocFrac total w j ∧ i < j)))
        ∧ (∀ i, i < w.length →
            (proportional_alloc total w).getD i 0 ≤ ⌈allocShare total w i⌉)))
    ∧ proportional_alloc 10 [1, 1, 1] = [4, 3, 3] := by
  constructor
  · intro total w h0 hw hs
    have hne : w ≠ [] := by
      intro h
      rw [h] at hs
      simp at hs
    refine ⟨proportional_alloc_length total w, proportional_alloc_sum total w h0 hne, ?_, ?_, ?_⟩
    · intro i hi
      rw [alloc_getD total w h0 hs i hi]
      by_cases hb : i ∈ allocBump total w
      · right
        rw [if_pos hb]
      · left
        rw [if_neg hb]
        ring
    · intro i j hi hj hbi hbj
      rw [alloc_getD total w h0 hs i hi] at hbi
      rw [alloc_getD total w h0 hs j hj] at hbj
      have hmi : i ∈ allocBump total w := by
        by_contra hno
        rw [if_neg hno] at hbi
        omega
      have hmj : j ∉ allocBump total w := by
        intro hyes
        rw [if_pos hyes] at hbj
        omega
      exact allocBump_beats total w i j hmi hj hmj
    · intro i hi
      rw [alloc_getD total w h0 hs i hi]
      by_cases hb : i ∈ allocBump total w
      · rw [if_pos hb]
        have hpos : 0 < total := by
          rcases eq_or_lt_of_le h0 with rfl | h
          · exfalso
            rw [allocBump_zero] at hb
            exact (List.not_mem_nil i) hb
          · exact h
        have hfrac := allocBump_frac_pos total w hne hpos hs i hb
        have hlt : ((allocFloor total w i : Int) : ℚ) < allocShare total w i := by
          rw [allocFrac] at hfrac
          linarith
        have hceil : allocShare total w i ≤ ((⌈allocShare total w i⌉ : Int) : ℚ) :=
          Int.le_ceil _
        have : allocFloor total w i < ⌈allocShare total w i⌉ := by
          exact_mod_cast lt_of_lt_of_le hlt hceil
        omega
      · rw [if_neg hb]
        rw [allocFloor_eq]
        have := Int.floor_le_ceil (allocShare total w i)
        omega
  · decide

theorem proportional_alloc_correct_witness :
    ((0 : Int) ≤ 10 ∧ (∀ x ∈ ([1, 1, 1] : List Int), 0 ≤ x)
        ∧ 0 < ([1, 1, 1] : List Int).sum)
      ∧ (proportional_alloc 10 [1, 1, 1]).sum = 10 :=
  ⟨⟨by decide, by decide, by decide⟩,
    (proportional_alloc_correct.1 10 [1, 1, 1] (by decide) (by decide) (by decide)).2.1⟩

/-- C5 counterexample: on the row volume 3, buy 1, sell 1 (under-allocated
by 1 with positive total) the historical reconciler rounds
`1 * (1/2)` half-to-even to 0 and yields (1, 2), while the live volume
totals block allocates the unit by largest remainder with the tie going
to the lower index (buy) and yields (2, 1). -/
theorem hist_row_reconcile_ne_live :
    liveVolumeTotals 3 1 1 0 0 = (2, 1) ∧ hist_row_reconcile 3 1 1 0 0 = (1, 2)
      ∧ hist_row_reconcile 3 1 1 0 0 ≠ liveVolumeTotals 3 1 1 0 0 := by
  refine ⟨?_, ?_, ?_⟩ <;> decide

/-- C5 amended: the per-row reconciliation of `process_hist_data` agrees
with the volume-totals block of the live reconciler on every row except
in the under-allocated branch with both sides not zero and positive
buy+sell, where the historical path uses float rounding and can differ
(see `hist_row_reconcile_ne_live`). -/
theorem hist_row_reconcile_agrees_live (vol buy sell : Int) (o cl : ℚ)
    (h : vol - (buy + sell) ≤ 0 ∨ (buy = 0 ∧ sell = 0) ∨ buy + sell ≤ 0) :
    hist_row_reconcile vol buy sell o cl = liveVolumeTotals vol buy sell o cl := by
  simp only [hist_row_reconcile, liveVolumeTotals]
  split_ifs with h1 h2 h3 h4 h5 h6 h7 <;>
    first
      | rfl
      | (rcases h with h | ⟨hb0, hs0⟩ | h <;> omega)

theorem hist_row_reconcile_agrees_live_witness :
    ((5 : Int) - (3 + 3) ≤ 0 ∨ ((3 : Int) = 0 ∧ (3 : Int) = 0) ∨ (3 : Int) + 3 ≤ 0)
      ∧ hist_row_reconcile 5 3 3 0 0 = liveVolumeTotals 5 3 3 0 0 :=
  ⟨Or.inl (by decide), hist_row_reconcile_agrees_live 5 3 3 0 0 (Or.inl (by decide))⟩

/-! ## Ladder sum lemmas (for the footprint conservation claim) -/

theorem ladderBuySum_nil : ladderBuySum [] = 0 := rfl

theorem ladderSellSum_nil : ladderSellSum [] = 0 := rfl

theorem ladderBuySum_cons (x : PriceLevel) (t : List PriceLevel) :
    ladderBuySum (x :: t) = x.buyVolume + ladderBuySum t := by
  simp [ladderBuySum]

theorem ladderSellSum_cons (x : PriceLevel) (t : List PriceLevel) :
    ladderSellSum (x :: t) = x.sellVolume + ladderSellSum t := by
  simp [ladderSellSum]

theorem intlist_sum_nonneg (l : List Int) (h : ∀ x ∈ l, 0 ≤ x) : 0 ≤ l.sum := by
  induction l with
  | nil => simp
  | cons a t ih =>
    rw [List.sum_cons]
    have := h a (List.mem_cons_self a t)
    have := ih (fun x hx => h x (List.mem_cons_of_mem a hx))
    omega

theorem ladderBuySum_nonneg (l : List PriceLevel)
    (h : ∀ it ∈ l, 0 ≤ it.buyVolume ∧ 0 ≤ it.sellVolume) : 0 ≤ ladderBuySum l := by
  apply intlist_sum_nonneg
  intro x hx
  rcases List.mem_map.mp hx with ⟨it, hit, rfl⟩
  exact (h it hit).1

theorem ladderSellSum_nonneg (l : List PriceLevel)
    (h : ∀ it ∈ l, 0 ≤ it.buyVolume ∧ 0 ≤ it.sellVolume) : 0 ≤ ladderSellSum l := by
  apply intlist_sum_nonneg
  intro x hx
  rcases List.mem_map.mp hx with ⟨it, hit, rfl⟩
  exact (h it hit).2

theorem intlist_sum_zero_all (l : List Int) (h : ∀ x ∈ l, 0 ≤ x) (h0 : l.sum = 0) :
    ∀ x ∈ l, x = 0 := by
  induction l with
  | nil => intro x hx; simp at hx
  | cons a t ih =>
    intro x hx
    rw [List.sum_cons] at h0
    have ha := h a (List.mem_cons_self a t)
    have ht := intlist_sum_nonneg t (fun y hy => h y (List.mem_cons_of_mem a hy))
    rcases List.mem_cons.mp hx with rfl | hx2
    · omega
    · exact ih (fun y hy => h y (List.mem_cons_of_mem a hy)) (by omega) x hx2

theorem ladder_entries_zero (l : List PriceLevel)
    (hnn : ∀ it ∈ l, 0 ≤ it.buyVolume ∧ 0 ≤ it.sellVolume)
    (hb0 : ladderBuySum l = 0) (hs0 : ladderSellSum l = 0) :
    ∀ it ∈ l, it.buyVolume = 0 ∧ it.sellVolume = 0 := by
  intro it hit
  constructor
  · exact intlist_sum_zero_all _
      (fun x hx => by
        rcases List.mem_map.mp hx with ⟨j, hj, rfl⟩
        exact (hnn j hj).1) hb0 _ (List.mem_map.mpr ⟨it, hit, rfl⟩)
  · exact intlist_sum_zero_all _
      (fun x hx => by
        rcases List.mem_map.mp hx with ⟨j, hj, rfl⟩
        exact (hnn j hj).2) hs0 _ (List.mem_map.mpr ⟨it, hit, rfl⟩)

theorem ladder_zipAdd_sums (l : List PriceLevel) :
    ∀ (ab asl : List Int), ab.length = l.length → asl.length = l.length →
    (∀ it ∈ l, 0 ≤ it.buyVolume ∧ 0 ≤ it.sellVolume) →
    (∀ x ∈ ab, 0 ≤ x) → (∀ x ∈ asl, 0 ≤ x) →
    ladderBuySum ((l.zip (ab.zip asl)).map
        (fun p => PriceLevel.mk p.1.priceLevel
          (max 0 (p.1.buyVolume + p.2.1)) (max 0 (p.1.sellVolume + p.2.2))))
      = ladderBuySum l + ab.sum
    ∧ ladderSellSum ((l.zip (ab.zip asl)).map
        (fun p => PriceLevel.mk p.1.priceLevel
          (max 0 (p.1.buyVolume + p.2.1)) (max 0 (p.1.sellVolume + p.2.2))))
      = ladderSellSum l + asl.sum := by
  induction l with
  | nil =>
    intro ab asl hab hasl _ _ _
    rw [List.length_nil] at hab hasl
    rw [List.length_eq_zero.mp hab, List.length_eq_zero.mp hasl]
    simp [ladderBuySum, ladderSellSum]
  | cons hd tl ih =>
    intro ab asl hab hasl hnn hnb hns
    cases ab with
    | nil => simp at hab
    | cons b bt =>
      cases asl with
      | nil => simp at hasl
      | cons s st =>
        have hb0 : 0 ≤ b := hnb b (List.mem_cons_self _ _)
        have hs0 : 0 ≤ s := hns s (List.mem_cons_self _ _)
        have hhd := hnn hd (List.mem_cons_self _ _)
        have ihr := ih bt st (by simpa using hab) (by simpa using hasl)
          (fun it hit => hnn it (List.mem_cons_of_mem _ hit))
          (fun x hx => hnb x (List.mem_cons_of_mem _ hx))
          (fun x hx => hns x (List.mem_cons_of_mem _ hx))
        rw [List.zip_cons_cons, List.zip_cons_cons, List.map_cons]
        rw [ladderBuySum_cons, ladderSellSum_cons, ladderBuySum_cons, ladderSellSum_cons,
          List.sum_cons, List.sum_cons]
        constructor
        · have h1 := ihr.1
          simp only [max_eq_right (show (0 : Int) ≤ hd.buyVolume + b by omega)]
          omega
        · have h2 := ihr.2
          simp only [max_eq_right (show (0 : Int) ≤ hd.sellVolume + s by omega)]
          omega

theorem ladderSums_set (l : List PriceLevel) :
    ∀ (i : Nat), i < l.length → ∀ (e : PriceLevel),
    ladderBuySum (l.set i e)
        = ladderBuySum l - (l.getD i ⟨0, 0, 0⟩).buyVolume + e.buyVolume
      ∧ ladderSellSum (l.set i e)
        = ladderSellSum l - (l.getD i ⟨0, 0, 0⟩).sellVolume + e.sellVolume := by
  induction l with
  | nil => intro i hi; simp at hi
  | cons hd tl ih =>
    intro i hi e
    cases i with
    | zero =>
      rw [List.set_cons_zero]
      rw [ladderBuySum_cons, ladderSellSum_cons, ladderBuySum_cons, ladderSellSum_cons]
      constructor <;> simp [List.getD_cons_zero] <;> omega
    | succ j =>
      rw [List.set_cons_succ]
      have hj : j < tl.length := by simpa using hi
      have ihr := ih j hj e
      rw [ladderBuySum_cons, ladderSellSum_cons, ladderBuySum_cons, ladderSellSum_cons]
      rw [List.getD_cons_succ]
      constructor
      · have := ihr.1
        omega
      · have := ihr.2
        omega

theorem ladder_getD_mem (l : List PriceLevel) (i : Nat) (hi : i < l.length) :
    l.getD i ⟨0, 0, 0⟩ ∈ l := by
  rw [List.getD_eq_getElem?_getD, List.getElem?_eq_getElem hi]
  exact List.getElem_mem hi

theorem foldl_argmax_lt (f : Nat → Int) (l : List Nat) (n : Nat) :
    ∀ (b : Nat), (∀ i ∈ l, i < n) → b < n →
    l.foldl (fun best i => if f best < f i then i else best) b < n := by
  induction l with
  | nil => intro b _ hb; exact hb
  | cons a t ih =>
    intro b hl hb
    rw [List.foldl_cons]
    apply ih
    · exact fun i hi => hl i (List.mem_cons_of_mem a hi)
    · by_cases h : f b < f a
      · rw [if_pos h]
        exact hl a (List.mem_cons_self a t)
      · rw [if_neg h]
        exact hb

theorem ladderArgmaxIdx_lt (l : List PriceLevel) (hne : l ≠ []) :
    ladderArgmaxIdx l < l.length := by
  have hlen : 0 < l.length := List.length_pos.mpr hne
  exact foldl_argmax_lt
    (fun j => (l.getD j ⟨0, 0, 0⟩).buyVolume + (l.getD j ⟨0, 0, 0⟩).sellVolume)
    (List.range l.length) l.length 0 (fun i hi => List.mem_range.mp hi) hlen

theorem proportional_alloc_nonneg (total : Int) (w : List Int)
    (hw : ∀ x ∈ w, 0 ≤ x) : ∀ y ∈ proportional_alloc total w, 0 ≤ y := by
  intro y hy
  by_cases h1 : w.length = 0
  · simp [proportional_alloc, h1] at hy
  · by_cases h2 : total ≤ 0
    · simp only [proportional_alloc, if_neg h1, if_pos h2] at hy
      rw [List.eq_of_mem_replicate hy]
    · by_cases h3 : w.sum ≤ 0
      · simp only [proportional_alloc, if_neg h1, if_neg h2, if_pos h3] at hy
        rcases List.mem_map.mp hy with ⟨i, _, rfl⟩
        have hbase : 0 ≤ total.fdiv (w.length : Int) :=
          Int.fdiv_nonneg (by omega) (by positivity)
        split_ifs <;> omega
      · push_neg at h2 h3
        rw [alloc_main_eq total w h2 h3] at hy
        rcases List.mem_map.mp hy with ⟨i, _, rfl⟩
        have hfl : 0 ≤ allocFloor total w i := by
          rw [allocFloor_eq]
          refine Int.floor_nonneg.mpr ?_
          rw [allocShare_eq]
          apply div_nonneg
          · have hg := getD_nonneg w hw i
            have : (0 : Int) ≤ total * w.getD i 0 := mul_nonneg (by omega) hg
            exact_mod_cast this
          · exact_mod_cast le_of_lt h3
        split_ifs <;> omega

theorem ifAdd_props (d : Int) (hd : 0 ≤ d) (weights : List Int) (n : Nat)
    (hwlen : weights.length = n) (hwne : weights ≠ []) (hwnn : ∀ x ∈ weights, 0 ≤ x) :
    ((if d ≠ 0 then proportional_alloc d weights else List.replicate n 0).length = n)
    ∧ ((if d ≠ 0 then proportional_alloc d weights else List.replicate n 0).sum = d)
    ∧ (∀ x ∈ (if d ≠ 0 then proportional_alloc d weights else List.replicate n 0), 0 ≤ x) := by
  by_cases hdz : d ≠ 0
  · rw [if_pos hdz]
    exact ⟨by rw [proportional_alloc_length, hwlen],
      proportional_alloc_sum d weights hd hwne,
      fun x hx => proportional_alloc_nonneg d weights hwnn x hx⟩
  · rw [if_neg hdz]
    push_neg at hdz
    refine ⟨List.length_replicate _ _, ?_, ?_⟩
    · rw [List.sum_replicate, hdz]
      simp
    · intro x hx
      rw [List.eq_of_mem_replicate hx]

theorem reconcileLadderProp_sums (tb ts : Int) (ladder : List PriceLevel)
    (hne : ladder ≠ []) (hnn : ∀ it ∈ ladder, 0 ≤ it.buyVolume ∧ 0 ≤ it.sellVolume)
    (hb : ladderBuySum ladder ≤ tb) (hs : ladderSellSum ladder ≤ ts)
    (ht : 0 < ladderBuySum ladder + ladderSellSum ladder) :
    ladderBuySum (reconcileLadderProp tb ts ladder) = tb
      ∧ ladderSellSum (reconcileLadderProp tb ts ladder) = ts := by
  simp only [reconcileLadderProp]
  rw [if_pos ht]
  have hwlen : (ladder.map (fun it => it.buyVolume + it.sellVolume)).length = ladder.length :=
    List.length_map _ _
  have hwne : ladder.map (fun it => it.buyVolume + it.sellVolume) ≠ [] := by
    intro h
    apply hne
    have h2 := congrArg List.length h
    rw [hwlen] at h2
    exact List.length_eq_zero.mp h2
  have hwnn : ∀ x ∈ ladder.map (fun it => it.buyVolume + it.sellVolume), 0 ≤ x := by
    intro x hx
    rcases List.mem_map.mp hx with ⟨it, hit, rfl⟩
    have := hnn it hit
    omega
  have hAb := ifAdd_props (tb - ladderBuySum ladder) (by omega) _ ladder.length hwlen hwne hwnn
  have hAs := ifAdd_props (ts - ladderSellSum ladder) (by omega) _ ladder.length hwlen hwne hwnn
  have hzip := ladder_zipAdd_sums ladder _ _ hAb.1 hAs.1 hnn hAb.2.2 hAs.2.2
  constructor
  · rw [hzip.1, hAb.2.1]
    ring
  · rw [hzip.2, hAs.2.1]
    ring

theorem reconcileLadderFinal_of_match (tb ts : Int) (l1 : List PriceLevel)
    (h1 : ladderBuySum l1 = tb) (h2 : ladderSellSum l1 = ts) :
    reconcileLadderFinal tb ts l1 = l1 := by
  simp only [reconcileLadderFinal]
  rw [if_neg]
  rintro ⟨_, h⟩
  rcases h with h | h
  · exact h h1
  · exact h h2

theorem reconcileLadderFinal_zero_sums (tb ts : Int) (l1 : List PriceLevel)
    (hne : l1 ≠ [])
    (hzero : ∀ it ∈ l1, it.buyVolume = 0 ∧ it.sellVolume = 0)
    (htb : 0 ≤ tb) (hts : 0 ≤ ts) :
    ladderBuySum (reconcileLadderFinal tb ts l1) = tb
      ∧ ladderSellSum (reconcileLadderFinal tb ts l1) = ts := by
  have hb0 : ladderBuySum l1 = 0 := by
    apply List.sum_eq_zero
    intro x hx
    rcases List.mem_map.mp hx with ⟨it, hit, rfl⟩
    exact (hzero it hit).1
  have hs0 : ladderSellSum l1 = 0 := by
    apply List.sum_eq_zero
    intro x hx
    rcases List.mem_map.mp hx with ⟨it, hit, rfl⟩
    exact (hzero it hit).2
  by_cases hT : tb = 0 ∧ ts = 0
  · simp only [reconcileLadderFinal]
    rw [if_neg]
    · rw [hb0, hs0, hT.1, hT.2]
      exact ⟨rfl, rfl⟩
    · rintro ⟨_, h⟩
      rcases h with h | h
      · exact h (by omega)
      · exact h (by omega)
  · simp only [reconcileLadderFinal]
    rw [if_pos ⟨hne, by rw [hb0, hs0]; omega⟩]
    have hli := ladderArgmaxIdx_lt l1 hne
    have he := hzero _ (ladder_getD_mem l1 (ladderArgmaxIdx l1) hli)
    have hset := ladderSums_set l1 (ladderArgmaxIdx l1) hli
      (PriceLevel.mk (l1.getD (ladderArgmaxIdx l1) ⟨0, 0, 0⟩).priceLevel
        (max 0 ((l1.getD (ladderArgmaxIdx l1) ⟨0, 0, 0⟩).buyVolume + (tb - ladderBuySum l1)))
        (max 0 ((l1.getD (ladderArgmaxIdx l1) ⟨0, 0, 0⟩).sellVolume + (ts - ladderSellSum l1))))
    constructor
    · rw [hset.1, he.1, hb0]
      dsimp only
      rw [max_eq_right (by omega)]
      omega
    · rw [hset.2, he.2, hs0]
      dsimp only
      rw [max_eq_right (by omega)]
      omega

/-- The reconciliation stage restores the ladder totals whenever the
enumerated ladder is nonempty, its entries are non-negative, and its
initial totals do not exceed the targets. -/
theorem reconcileLadder_sums (tb ts : Int) (ladder : List PriceLevel)
    (hne : ladder ≠ []) (hnn : ∀ it ∈ ladder, 0 ≤ it.buyVolume ∧ 0 ≤ it.sellVolume)
    (hb : ladderBuySum ladder ≤ tb) (hs : ladderSellSum ladder ≤ ts) :
    ladderBuySum (reconcileLadder tb ts ladder) = tb
      ∧ ladderSellSum (reconcileLadder tb ts ladder) = ts := by
  simp only [reconcileLadder]
  by_cases hd0 : tb - ladderBuySum ladder = 0 ∧ ts - ladderSellSum ladder = 0
  · rw [if_pos hd0]
    omega
  · rw [if_neg hd0]
    by_cases ht : 0 < ladderBuySum ladder + ladderSellSum ladder
    · have hp := reconcileLadderProp_sums tb ts ladder hne hnn hb hs ht
      rw [reconcileLadderFinal_of_match tb ts _ hp.1 hp.2]
      exact hp
    · have hbnn := ladderBuySum_nonneg ladder hnn
      have hsnn := ladderSellSum_nonneg ladder hnn
      have hb0 : ladderBuySum ladder = 0 := by omega
      have hs0 : ladderSellSum ladder = 0 := by omega
      have hzero : ∀ it ∈ ladder, it.buyVolume = 0 ∧ it.sellVolume = 0 :=
        ladder_entries_zero ladder hnn hb0 hs0
      have hprop : reconcileLadderProp tb ts ladder = ladder := by
        simp only [reconcileLadderProp]
        rw [if_neg ht]
      rw [hprop]
      exact reconcileLadderFinal_zero_sums tb ts ladder hne hzero (by omega) (by omega)

/-- C2 counterexample: `build_footprint_from_map` does not guarantee I2.
With targets buy 0 / sell 10 and a two-level map holding buy 10 /
sell 10, the negative buy deficit is handed to `_proportional_alloc`
(not the signed variant), which returns zeros for a non-positive total,
and the final largest-level adjustment is clamped at 0, so the emitted
ladder still sums to buy 10 while the candle says buy 0. -/
theorem build_footprint_breaks_conservation :
    ladderBuySum (build_footprint_from_map candleFixtureA fpFixtureA 5) = 10
      ∧ candleFixtureA.buy_vol = 0
      ∧ ladderBuySum (build_footprint_from_map candleFixtureA fpFixtureA 5)
          ≠ candleFixtureA.buy_vol := by
  refine ⟨?_, ?_, ?_⟩ <;> decide

/-- C2 amended: the ladder emitted by `build_footprint_from_map` sums to
the candle's buy/sell totals whenever the enumerated ladder is
nonempty, has non-negative entries, and its initial totals do not
exceed the candle totals (in particular whenever both deficits are
non-negative); when a deficit is negative the unsigned allocator
contributes nothing and the clamped adjustment can leave the totals
unequal (`build_footprint_breaks_conservation`). -/
theorem build_footprint_conserves (c : Candle) (fp : FpMap) (B : ℚ)
    (hne : build_ladder c fp B ≠ [])
    (hnn : ∀ it ∈ build_ladder c fp B, 0 ≤ it.buyVolume ∧ 0 ≤ it.sellVolume)
    (hb : ladderBuySum (build_ladder c fp B) ≤ c.buy_vol)
    (hs : ladderSellSum (build_ladder c fp B) ≤ c.sell_vol) :
    ladderBuySum (build_footprint_from_map c fp B) = c.buy_vol
      ∧ ladderSellSum (build_footprint_from_map c fp B) = c.sell_vol := by
  rw [build_footprint_from_map]
  exact reconcileLadder_sums c.buy_vol c.sell_vol (build_ladder c fp B) hne hnn hb hs

theorem build_footprint_conserves_witness :
    (build_ladder candleFixtureB fpFixtureB 5 ≠ []
        ∧ (∀ it ∈ build_ladder candleFixtureB fpFixtureB 5,
            0 ≤ it.buyVolume ∧ 0 ≤ it.sellVolume)
        ∧ ladderBuySum (build_ladder candleFixtureB fpFixtureB 5) ≤ candleFixtureB.buy_vol
        ∧ ladderSellSum (build_ladder candleFixtureB fpFixtureB 5) ≤ candleFixtureB.sell_vol)
      ∧ ladderBuySum (build_footprint_from_map candleFixtureB fpFixtureB 5)
          = candleFixtureB.buy_vol := by
  refine ⟨⟨by decide, by decide, by decide, by decide⟩, ?_⟩
  exact (build_footprint_conserves candleFixtureB fpFixtureB 5
    (by decide) (by decide) (by decide) (by decide)).1

/-! ## Per-tick and reconciliation invariants for `process_tick` -/

theorem fixupBuySell_sum (vol : Int) (bs : Int × Int) :
    (fixupBuySell vol bs).1 + (fixupBuySell vol bs).2 = vol := by
  simp only [fixupBuySell]
  split_ifs with h1 h2 <;> omega

theorem liveVolumeTotals_of_eq (vol buy sell : Int) (o cl : ℚ) (h : buy + sell = vol) :
    liveVolumeTotals vol buy sell o cl = (buy, sell) := by
  simp only [liveVolumeTotals]
  rw [if_pos (by omega)]

theorem determine_preserves (st : AggState) (m : Msg) :
    (determine_trade_volume st m).2.candle = st.candle
    ∧ (determine_trade_volume st m).2.footprint = st.footprint
    ∧ (determine_trade_volume st m).2.recent_trades = st.recent_trades
    ∧ (determine_trade_volume st m).2.session_cum_delta = st.session_cum_delta
    ∧ (determine_trade_volume st m).2.last_trading_day = st.last_trading_day
    ∧ (determine_trade_volume st m).2.current_candle_time = st.current_candle_time
    ∧ (determine_trade_volume st m).2.last_ltp = st.last_ltp :=
  ⟨rfl, rfl, rfl, rfl, rfl, rfl, rfl⟩

theorem reconcile_candle_fields (cfg : AggConfig) (st : AggState) (c0 : Candle)
    (hc : st.candle = some c0) (h1 : c0.buy_vol + c0.sell_vol = c0.volume) :
    ∃ lad fp1,
      reconcile_candle_and_footprint cfg st
        = { st with
            candle := some { c0 with
              delta := c0.buy_vol - c0.sell_vol,
              cum_delta := st.session_cum_delta + (c0.buy_vol - c0.sell_vol - c0.delta),
              footprint := lad },
            footprint := fp1,
            session_cum_delta :=
              st.session_cum_delta + (c0.buy_vol - c0.sell_vol - c0.delta) } := by
  simp only [reconcile_candle_and_footprint, hc]
  rw [liveVolumeTotals_of_eq _ _ _ _ _ h1]
  exact ⟨_, _, rfl⟩

theorem mem_pushRecentTrade (ring : List TradeKey) (k : TradeKey) :
    k ∈ pushRecentTrade ring k := by
  simp only [pushRecentTrade]
  split
  · rw [List.drop_append_of_le_length (by simp [List.length_append])]
    exact List.mem_append_right _ (List.mem_singleton_self k)
  · exact List.mem_append_right _ (List.mem_singleton_self k)

theorem applyCandleUpdate_recent (cfg : AggConfig) (st : AggState) (m : Msg) (ltp : ℚ)
    (time_bin vol buy sell : Int) (bucket : ℚ) :
    (applyCandleUpdate cfg st m ltp time_bin vol buy sell bucket).recent_trades
      = st.recent_trades := by
  rcases hc : st.candle with _ | c0 <;> simp only [applyCandleUpdate, hc] <;> split <;> rfl

theorem reconcile_recent (cfg : AggConfig) (st : AggState) :
    (reconcile_candle_and_footprint cfg st).recent_trades = st.recent_trades := by
  rcases hc : st.candle with _ | c0 <;> simp only [reconcile_candle_and_footprint, hc] <;> rfl

theorem reconcile_none (cfg : AggConfig) (st : AggState) (hc : st.candle = none) :
    reconcile_candle_and_footprint cfg st = st := by
  simp only [reconcile_candle_and_footprint, hc]

/-- The full shape of `_reconcile_candle_and_footprint` on a state that
holds a candle: volume totals, delta and cumulative delta update, and
some footprint map and ladder. -/
theorem reconcile_shape (cfg : AggConfig) (st : AggState) (c0 : Candle)
    (hc : st.candle = some c0) :
    ∃ lad fp1,
      reconcile_candle_and_footprint cfg st
        = { st with
            candle := some { c0 with
              buy_vol := (liveVolumeTotals c0.volume c0.buy_vol c0.sell_vol c0.open_ c0.close).1,
              sell_vol := (liveVolumeTotals c0.volume c0.buy_vol c0.sell_vol c0.open_ c0.close).2,
              delta := (liveVolumeTotals c0.volume c0.buy_vol c0.sell_vol c0.open_ c0.close).1
                - (liveVolumeTotals c0.volume c0.buy_vol c0.sell_vol c0.open_ c0.close).2,
              cum_delta := st.session_cum_delta
                + ((liveVolumeTotals c0.volume c0.buy_vol c0.sell_vol c0.open_ c0.close).1
                  - (liveVolumeTotals c0.volume c0.buy_vol c0.sell_vol c0.open_ c0.close).2
                  - c0.delta),
              footprint := lad },
            footprint := fp1,
            session_cum_delta := st.session_cum_delta
              + ((liveVolumeTotals c0.volume c0.buy_vol c0.sell_vol c0.open_ c0.close).1
                - (liveVolumeTotals c0.volume c0.buy_vol c0.sell_vol c0.open_ c0.close).2
                - c0.delta) } := by
  simp only [reconcile_candle_and_footprint, hc]
  exact ⟨_, _, rfl⟩

theorem reconcile_time (cfg : AggConfig) (st : AggState) (c0 : Candle)
    (hc : st.candle = some c0) :
    ∀ c1 ∈ (reconcile_candle_and_footprint cfg st).candle, c1.time = c0.time := by
  obtain ⟨lad, fp1, heq⟩ := reconcile_shape cfg st c0 hc
  intro c1 h1
  rw [Option.mem_def, heq] at h1
  injection h1 with h1
  rw [← h1]

theorem applyCandleUpdate_time (cfg : AggConfig) (st : AggState) (m : Msg) (ltp : ℚ)
    (time_bin vol buy sell : Int) (bucket : ℚ) :
    ∀ c1 ∈ (applyCandleUpdate cfg st m ltp time_bin vol buy sell bucket).candle,
      c1.time = time_bin := by
  intro c1 h1
  rw [Option.mem_def] at h1
  rcases hc : st.candle with _ | c0
  · simp only [applyCandleUpdate, hc] at h1
    injection h1 with h1
    rw [← h1]
  · by_cases ht : c0.time = time_bin
    · simp only [applyCandleUpdate, hc, ht, bne_self_eq_false] at h1
      injection h1 with h1
      rw [← h1]
    · have hb : (c0.time != time_bin) = true := by simp [ht]
      simp only [applyCandleUpdate, hc, hb] at h1
      injection h1 with h1
      rw [← h1]

theorem applyCandleUpdate_inv (cfg : AggConfig) (st : AggState) (m : Msg) (ltp : ℚ)
    (time_bin vol buy sell : Int) (bucket : ℚ)
    (hInv : ∀ c0 ∈ st.candle, c0.buy_vol + c0.sell_vol = c0.volume)
    (hbs : buy + sell = vol) :
    ∀ c1 ∈ (applyCandleUpdate cfg st m ltp time_bin vol buy sell bucket).candle,
      c1.buy_vol + c1.sell_vol = c1.volume := by
  intro c1 h1
  rw [Option.mem_def] at h1
  rcases hc : st.candle with _ | c0
  · simp only [applyCandleUpdate, hc] at h1
    injection h1 with h1
    rw [← h1]
    exact hbs
  · have h0 := hInv c0 (by rw [hc]; rfl)
    by_cases ht : c0.time = time_bin
    · simp only [applyCandleUpdate, hc, ht, bne_self_eq_false] at h1
      injection h1 with h1
      rw [← h1]
      dsimp only
      omega
    · have hb : (c0.time != time_bin) = true := by simp [ht]
      simp only [applyCandleUpdate, hc, hb] at h1
      injection h1 with h1
      rw [← h1]
      exact hbs

/-- On a state whose candle (if any) sits in a different time bin and
whose last trading day differs from the bin's trading day,
`applyCandleUpdate` opens a fresh candle whose cumulative delta equals
its delta, and stores that value as the session cumulative delta. -/
theorem applyCandleUpdate_new_day (cfg : AggConfig) (st : AggState) (m : Msg) (ltp : ℚ)
    (time_bin vol buy sell : Int) (bucket : ℚ)
    (hnew : ∀ c0 ∈ st.candle, c0.time ≠ time_bin)
    (hday : st.last_trading_day ≠ some (get_market_open_timestamp time_bin)) :
    ∃ c1, (applyCandleUpdate cfg st m ltp time_bin vol buy sell bucket).candle = some c1
      ∧ c1.delta = buy - sell
      ∧ c1.cum_delta = buy - sell
      ∧ (applyCandleUpdate cfg st m ltp time_bin vol buy sell bucket).session_cum_delta
          = buy - sell := by
  have hdr : (match st.last_trading_day with
      | none => true
      | some d => get_market_open_timestamp time_bin != d) = true := by
    rcases hd : st.last_trading_day with _ | d
    · rfl
    · have : get_market_open_timestamp time_bin ≠ d := by
        intro he
        exact hday (by rw [hd, he])
      simpa using this
  rcases hc : st.candle with _ | c0
  · simp only [applyCandleUpdate, hc, hdr, if_true]
    exact ⟨_, rfl, rfl, show (0 : Int) + (buy - sell) = buy - sell by omega,
      show (0 : Int) + (buy - sell) = buy - sell by omega⟩
  · have hb : (c0.time != time_bin) = true := by
      have := hnew c0 (by rw [hc]; rfl)
      simpa using this
    simp only [applyCandleUpdate, hc, hb, hdr, if_true]
    exact ⟨_, rfl, rfl, show (0 : Int) + (buy - sell) = buy - sell by omega,
      show (0 : Int) + (buy - sell) = buy - sell by omega⟩

/-- Branch decomposition of the `process_tick` body: either the tick is
dropped (volume sanity check or duplicate) with the candle untouched, or
the result is the reconciliation of the candle update on a state `st3`
that differs from `st` only in the trade-volume trackers, the last
price, and the recent-trade ring — with `buy + sell = vol` restored by
the fix-up. -/
theorem process_tick_core_cases (cfg : AggConfig) (st : AggState) (m : Msg) (ltp : ℚ)
    (ts : Int) :
    ((process_tick_core cfg st m ltp ts).1 = none
      ∧ (process_tick_core cfg st m ltp ts).2.candle = st.candle)
    ∨ ∃ st3 vol b s,
        process_tick_core cfg st m ltp ts
          = ((reconcile_candle_and_footprint cfg
                (applyCandleUpdate cfg st3 m ltp
                  (calculate_aligned_time_bin ts (interval_map cfg.timeframe)) vol b s
                  (get_bucket_key ltp cfg.bucket_size cfg.multiplier))).candle,
             reconcile_candle_and_footprint cfg
                (applyCandleUpdate cfg st3 m ltp
                  (calculate_aligned_time_bin ts (interval_map cfg.timeframe)) vol b s
                  (get_bucket_key ltp cfg.bucket_size cfg.multiplier)))
        ∧ st3.candle = st.candle
        ∧ st3.session_cum_delta = st.session_cum_delta
        ∧ st3.last_trading_day = st.last_trading_day
        ∧ b + s = vol := by
  simp only [process_tick_core]
  split
  · exact Or.inl ⟨rfl, rfl⟩
  · split
    · exact Or.inl ⟨rfl, rfl⟩
    · exact Or.inr ⟨_, _, _, _, rfl, rfl, rfl, rfl, fixupBuySell_sum _ _⟩

theorem reconcile_inv (cfg : AggConfig) (st : AggState)
    (hInv : ∀ c0 ∈ st.candle, c0.buy_vol + c0.sell_vol = c0.volume) :
    ∀ c1 ∈ (reconcile_candle_and_footprint cfg st).candle,
      c1.buy_vol + c1.sell_vol = c1.volume := by
  intro c1 h1
  rw [Option.mem_def] at h1
  rcases hc : st.candle with _ | c0
  · rw [reconcile_none cfg st hc, hc] at h1
    exact Option.noConfusion h1
  · obtain ⟨lad, fp1, heq⟩ :=
      reconcile_candle_fields cfg st c0 hc (hInv c0 (by rw [hc]; rfl))
    rw [heq] at h1
    injection h1 with h1
    rw [← h1]
    dsimp only
    exact hInv c0 (by rw [hc]; rfl)

/-- C1 (volume conservation, I1/P1): on any state whose candle already
satisfies `buy_vol + sell_vol = volume`, every candle `process_tick`
returns satisfies `buy_vol + sell_vol = volume`, and the state's candle
keeps satisfying it — so by induction every candle the aggregator emits
is conserved, integer-exactly, after reconciliation. -/
theorem process_tick_volume_conservation (cfg : AggConfig) (st : AggState) (m : Msg)
    (hInv : ∀ c0 ∈ st.candle, c0.buy_vol + c0.sell_vol = c0.volume) :
    (∀ c ∈ (process_tick cfg st m).1, c.buy_vol + c.sell_vol = c.volume)
    ∧ ∀ c ∈ (process_tick cfg st m).2.candle, c.buy_vol + c.sell_vol = c.volume := by
  rcases htv : tickValidate m with _ | ⟨ltp, ts⟩
  · simp only [process_tick, htv]
    exact ⟨fun c hc => Option.noConfusion (Option.mem_def.mp hc), hInv⟩
  · simp only [process_tick, htv]
    rcases process_tick_core_cases cfg st m ltp ts with ⟨h1, h2⟩ | ⟨st3, vol, b, s, heq, hcand, _, _, hbs⟩
    · constructor
      · intro c hc
        rw [Option.mem_def, h1] at hc
        exact Option.noConfusion hc
      · intro c hc
        rw [Option.mem_def, h2] at hc
        exact hInv c hc
    · rw [heq]
      have hInv3 : ∀ c0 ∈ st3.candle, c0.buy_vol + c0.sell_vol = c0.volume := by
        intro c0 hc0
        rw [Option.mem_def, hcand] at hc0
        exact hInv c0 hc0
      have hrec := reconcile_inv cfg
        (applyCandleUpdate cfg st3 m ltp
          (calculate_aligned_time_bin ts (interval_map cfg.timeframe)) vol b s
          (get_bucket_key ltp cfg.bucket_size cfg.multiplier))
        (applyCandleUpdate_inv cfg st3 m ltp
          (calculate_aligned_time_bin ts (interval_map cfg.timeframe)) vol b s
          (get_bucket_key ltp cfg.bucket_size cfg.multiplier) hInv3 hbs)
      exact ⟨hrec, hrec⟩

theorem process_tick_volume_conservation_witness :
    (process_tick cfgW initState msgW).1 = some tickCandleW
    ∧ tickCandleW.buy_vol + tickCandleW.sell_vol = tickCandleW.volume := by
  have h : (process_tick cfgW initState msgW).1 = some tickCandleW := by decide
  exact ⟨h, (process_tick_volume_conservation cfgW initState msgW (by decide)).1
    tickCandleW h⟩

/-- C8 (daily cumulative-delta reset, I5/P6): when `process_tick` emits a
candle in a fresh time bin (the state's candle, if any, sits in a
different bin) whose trading day — the market open of its time bin —
differs from the state's last trading day, the session cumulative delta
is reset to zero before the new candle's delta is added, so the emitted
candle's `cum_delta` equals its own `delta`. -/
theorem process_tick_day_reset (cfg : AggConfig) (st : AggState) (m : Msg) (c : Candle)
    (h : (process_tick cfg st m).1 = some c)
    (hnew : ∀ c0 ∈ st.candle, c0.time ≠ c.time)
    (hday : st.last_trading_day ≠ some (get_market_open_timestamp c.time)) :
    c.cum_delta = c.delta := by
  rcases htv : tickValidate m with _ | ⟨ltp, ts⟩
  · simp only [process_tick, htv] at h
    exact Option.noConfusion h
  · simp only [process_tick, htv] at h
    rcases process_tick_core_cases cfg st m ltp ts with
      ⟨h1, _⟩ | ⟨st3, vol, b, s, heq, hcand, hscd, hltd, hbs⟩
    · rw [h1] at h
      exact Option.noConfusion h
    · rw [heq] at h
      dsimp only at h
      set tb := calculate_aligned_time_bin ts (interval_map cfg.timeframe) with htb
      set st4 := applyCandleUpdate cfg st3 m ltp tb vol b s
        (get_bucket_key ltp cfg.bucket_size cfg.multiplier) with hst4
      rcases hc4 : st4.candle with _ | c1
      · rw [reconcile_none cfg st4 hc4, hc4] at h
        exact Option.noConfusion h
      · have htc : c.time = tb := by
          rw [reconcile_time cfg st4 c1 hc4 c (Option.mem_def.mpr h)]
          exact applyCandleUpdate_time cfg st3 m ltp tb vol b s
            (get_bucket_key ltp cfg.bucket_size cfg.multiplier) c1 (Option.mem_def.mpr hc4)
        have hN : ∀ c0 ∈ st3.candle, c0.time ≠ tb := by
          intro c0 hc0
          rw [Option.mem_def, hcand] at hc0
          rw [← htc]
          exact hnew c0 hc0
        have hD : st3.last_trading_day ≠ some (get_market_open_timestamp tb) := by
          rw [hltd, ← htc]
          exact hday
        obtain ⟨c1', hc1', hdelta, hcum, hsess⟩ :=
          applyCandleUpdate_new_day cfg st3 m ltp tb vol b s
            (get_bucket_key ltp cfg.bucket_size cfg.multiplier) hN hD
        rw [hc4] at hc1'
        injection hc1' with hc1'
        have hd1 : c1.delta = b - s := by rw [hc1']; exact hdelta
        obtain ⟨lad, fp1, hrec⟩ := reconcile_shape cfg st4 c1 hc4
        rw [hrec] at h
        injection h with h
        rw [← h]
        dsimp only
        rw [hsess, hd1]
        omega

theorem process_tick_day_reset_witness :
    (process_tick cfgW stW8 msgW8).1 = some tickCandleW8
    ∧ stW8.session_cum_delta = 1200
    ∧ tickCandleW8.cum_delta = tickCandleW8.delta := by
  have h : (process_tick cfgW stW8 msgW8).1 = some tickCandleW8 := by decide
  exact ⟨h, rfl,
    process_tick_day_reset cfgW stW8 msgW8 tickCandleW8 h (by decide) (by decide)⟩

/-- Whenever `process_tick` emits a candle, the dedup key it computed
for the message has been pushed into the recent-trade ring of the
resulting state. -/
theorem process_tick_key_pushed (cfg : AggConfig) (st : AggState) (m : Msg)
    (h : (process_tick cfg st m).1.isSome = true) :
    ∃ k, tickKey st m = some k ∧ k ∈ (process_tick cfg st m).2.recent_trades := by
  rcases htv : tickValidate m with _ | ⟨ltp, ts⟩
  · simp only [process_tick, htv] at h
    simp at h
  · simp only [process_tick, htv, process_tick_core] at h ⊢
    simp only [tickKey, htv]
    split at h
    · simp at h
    · next hcond =>
      split at h
      · simp at h
      · next hmem =>
        simp only [if_neg hcond, if_neg hmem]
        refine ⟨_, rfl, ?_⟩
        rw [reconcile_recent, applyCandleUpdate_recent]
        exact mem_pushRecentTrade _ _

/-- The duplicate-drop branch of `process_tick`: if the computed dedup
key is already in the recent-trade ring, the call returns `None` and
leaves the candle, the footprint map, the ring, the session cumulative
delta, the trading day and the current bin untouched. -/
theorem process_tick_dup_drop (cfg : AggConfig) (st : AggState) (m : Msg) (k : TradeKey)
    (hk : tickKey st m = some k) (hmem : k ∈ st.recent_trades) :
    (process_tick cfg st m).1 = none
    ∧ (process_tick cfg st m).2.candle = st.candle
    ∧ (process_tick cfg st m).2.footprint = st.footprint
    ∧ (process_tick cfg st m).2.recent_trades = st.recent_trades
    ∧ (process_tick cfg st m).2.session_cum_delta = st.session_cum_delta
    ∧ (process_tick cfg st m).2.last_trading_day = st.last_trading_day
    ∧ (process_tick cfg st m).2.current_candle_time = st.current_candle_time := by
  rcases htv : tickValidate m with _ | ⟨ltp, ts⟩
  · simp only [tickKey, htv] at hk
    exact Option.noConfusion hk
  · simp only [tickKey, htv] at hk
    simp only [process_tick, htv, process_tick_core]
    split at hk
    · exact Option.noConfusion hk
    · next hcond =>
      injection hk with hk
      simp only [if_neg hcond]
      rw [if_pos (show _ ∈ _ by rw [hk]; exact hmem)]
      exact ⟨rfl, rfl, rfl, rfl, rfl, rfl, rfl⟩

/-- C7 (deduplication, P8): if a tick is accepted by `process_tick` and
a second tick presented to the resulting state carries the identical
dedup key `(ts, round(ltp,6), vol, buy, sell, trade_id)`, the second
call returns `None` and leaves the candle and footprint exactly as the
first call left them — exactly one update results. -/
theorem process_tick_dedup (cfg : AggConfig) (st : AggState) (m1 m2 : Msg)
    (h1 : (process_tick cfg st m1).1.isSome = true)
    (hk : tickKey (process_tick cfg st m1).2 m2 = tickKey st m1) :
    (process_tick cfg (process_tick cfg st m1).2 m2).1 = none
    ∧ (process_tick cfg (process_tick cfg st m1).2 m2).2.candle
        = (process_tick cfg st m1).2.candle
    ∧ (process_tick cfg (process_tick cfg st m1).2 m2).2.footprint
        = (process_tick cfg st m1).2.footprint := by
  obtain ⟨k, hkey, hmem⟩ := process_tick_key_pushed cfg st m1 h1
  rw [hkey] at hk
  obtain ⟨a, b, c, _⟩ := process_tick_dup_drop cfg (process_tick cfg st m1).2 m2 k hk hmem
  exact ⟨a, b, c⟩

theorem process_tick_dedup_witness :
    ((process_tick cfgW initState msgW).1.isSome = true)
    ∧ (process_tick cfgW (process_tick cfgW initState msgW).2 msgW).1 = none
    ∧ (process_tick cfgW (process_tick cfgW initState msgW).2 msgW).2.candle
        = (process_tick cfgW initState msgW).2.candle := by
  obtain ⟨a, b, _⟩ := process_tick_dedup cfgW initState msgW msgW (by decide) (by decide)
  exact ⟨by decide, a, b⟩

/-- C9 counterexample: a tick dropped as a duplicate (its key is in the
recent-trade ring, the call returns `None`, the candle is untouched)
nevertheless changes `last_cum_volume` — a tracker the claim's frame
does not allow — because `_determine_trade_volume` runs before the
dedup check. -/
theorem process_tick_dup_changes_last_cum :
    tickKey s0C9 mC9 = some kC9
    ∧ kC9 ∈ s0C9.recent_trades
    ∧ (process_tick cfgW s0C9 mC9).1 = none
    ∧ (process_tick cfgW s0C9 mC9).2.candle = s0C9.candle
    ∧ (process_tick cfgW s0C9 mC9).2.footprint = s0C9.footprint
    ∧ (process_tick cfgW s0C9 mC9).2.last_cum_volume ≠ s0C9.last_cum_volume := by decide

/-- C9 (amended frame): when `process_tick` drops a tick whose dedup
key is already in the recent-trade ring, it returns `None` and leaves
the candle, the footprint map, the ring, the session cumulative delta,
the trading day and the current bin exactly as they were; only the
per-symbol trackers `last_ltp`, `last_cum_volume` and
`last_processed_cum_volume` may have been updated. -/
theorem process_tick_dup_frame (cfg : AggConfig) (st : AggState) (m : Msg) (k : TradeKey)
    (hk : tickKey st m = some k) (hmem : k ∈ st.recent_trades) :
    (process_tick cfg st m).1 = none
    ∧ (process_tick cfg st m).2.candle = st.candle
    ∧ (process_tick cfg st m).2.footprint = st.footprint
    ∧ (process_tick cfg st m).2.recent_trades = st.recent_trades
    ∧ (process_tick cfg st m).2.session_cum_delta = st.session_cum_delta
    ∧ (process_tick cfg st m).2.last_trading_day = st.last_trading_day
    ∧ (process_tick cfg st m).2.current_candle_time = st.current_candle_time :=
  process_tick_dup_drop cfg st m k hk hmem

theorem process_tick_dup_frame_witness :
    tickKey s0C9 mC9 = some kC9
    ∧ kC9 ∈ s0C9.recent_trades
    ∧ ((process_tick cfgW s0C9 mC9).1 = none
       ∧ (process_tick cfgW s0C9 mC9).2.candle = s0C9.candle
       ∧ (process_tick cfgW s0C9 mC9).2.footprint = s0C9.footprint
       ∧ (process_tick cfgW s0C9 mC9).2.recent_trades = s0C9.recent_trades
       ∧ (process_tick cfgW s0C9 mC9).2.session_cum_delta = s0C9.session_cum_delta
       ∧ (process_tick cfgW s0C9 mC9).2.last_trading_day = s0C9.last_trading_day
       ∧ (process_tick cfgW s0C9 mC9).2.current_candle_time = s0C9.current_candle_time) :=
  ⟨by decide, by decide, process_tick_dup_frame cfgW s0C9 mC9 kC9 (by decide) (by decide)⟩

/-- C4: the idempotent-seed guard of `process_live_data`.  On a seeding
echo without `last_traded_qty` it returns the seeded candle unchanged
and leaves the state at the seeded state, as specified.  But the guard
also fires on a tick that carries `last_traded_qty = 5`: the code tests
only the cumulative-volume equality, so the trade is swallowed although
the specification (and the code's own comment) require both conditions
for the guard. -/
theorem live_guard_ignores_last_traded_qty :
    ((process_live_data cfgW initState mC4b (some histC4)).1 = some seededC4
      ∧ (process_live_data cfgW initState mC4b (some histC4)).2
          = seedFromHist initState histC4)
    ∧ mC4.last_traded_qty = some 5
    ∧ (process_live_data cfgW initState mC4 (some histC4)).1 = some seededC4
    ∧ (process_live_data cfgW initState mC4 (some histC4)).2
        = seedFromHist initState histC4 := by decide

theorem tryExceptVT_isOk (x : Except PyErr (Option Candle × AggState)) (st : AggState)
    (hx : x ≠ Except.error PyErr.overflowError) : (tryExceptVT x st).isOk = true := by
  rcases x with e | v
  · cases e
    · rfl
    · rfl
    · exact absurd rfl hx
  · rfl

theorem tryExceptVT_ok_or_overflow (x : Except PyErr (Option Candle × AggState))
    (st : AggState) :
    (tryExceptVT x st).isOk = true ∨ tryExceptVT x st = Except.error PyErr.overflowError := by
  rcases x with e | v
  · cases e
    · exact Or.inl rfl
    · exact Or.inl rfl
    · exact Or.inr rfl
  · exact Or.inl rfl

theorem normalize_timestamp_exc_no_overflow (t : PyNum) (ht : t ≠ PyNum.inf) :
    normalize_timestamp_exc t ≠ Except.error PyErr.overflowError := by
  cases t
  · simp only [normalize_timestamp_exc]
    split_ifs <;> simp
  · exact absurd rfl ht
  · simp [normalize_timestamp_exc]

theorem orTruthyPyNum_ne_inf (a b : Option PyNum) (ha : a ≠ some PyNum.inf)
    (hb : b ≠ some PyNum.inf) (t : PyNum)
    (h : orTruthyPyNum a b = some t) : t ≠ PyNum.inf := by
  rcases a with _ | u
  · simp only [orTruthyPyNum] at h
    intro he
    exact hb (by rw [h, he])
  · simp only [orTruthyPyNum] at h
    split at h
    · injection h with h
      intro he
      exact ha (by rw [h, he])
    · intro he
      exact hb (by rw [h, he])

theorem tickValidateExc_no_overflow (m : MsgX)
    (h1 : m.exch_feed_time ≠ some PyNum.inf) (h2 : m.last_traded_time ≠ some PyNum.inf) :
    tickValidateExc m ≠ Except.error PyErr.overflowError := by
  rcases hs : m.base.symbol with _ | s <;> simp only [tickValidateExc, hs]
  · simp
  · split_ifs with he
    · simp
    · rcases hl : m.base.ltp with _ | ltp <;> simp only [hl]
      · simp
      · rcases hor : orTruthyPyNum m.exch_feed_time m.last_traded_time with _ | t
        · simp [hor]
        · simp only [hor]
          have ht := orTruthyPyNum_ne_inf m.exch_feed_time m.last_traded_time h1 h2 t hor
          rcases hn : normalize_timestamp_exc t with e | v
          · have := normalize_timestamp_exc_no_overflow t ht
            rw [hn] at this
            simp only [hn]
            intro hc
            injection hc with hc
            exact this (by rw [hc])
          · rcases v with _ | ts <;> simp [hn]

theorem process_tick_exc_no_overflow (cfg : AggConfig) (st : AggState) (m : MsgX)
    (h1 : m.exch_feed_time ≠ some PyNum.inf) (h2 : m.last_traded_time ≠ some PyNum.inf) :
    process_tick_exc cfg st m ≠ Except.error PyErr.overflowError := by
  simp only [process_tick_exc]
  rcases hv : tickValidateExc m with e | v
  · have := tickValidateExc_no_overflow m h1 h2
    rw [hv] at this
    simpa using this
  · rcases v with _ | p <;> simp

/-- C6 (amended): on well-typed messages `process_live_data` returns a
candle or `None` for every input — the `except (ValueError, TypeError)`
wrapper catches what the body raises — EXCEPT that an infinite
timestamp makes `int()` in the timestamp normalization raise
`OverflowError`, which is not in the caught tuple and so propagates to
the caller.  When neither timestamp field is `inf`, the call always
returns normally. -/
theorem process_live_data_exc_contained (cfg : AggConfig) (st : AggState) (m : MsgX)
    (hist : Option HistCandle) :
    ((process_live_data_exc cfg st m hist).isOk = true
      ∨ process_live_data_exc cfg st m hist = Except.error PyErr.overflowError)
    ∧ (m.exch_feed_time ≠ some PyNum.inf → m.last_traded_time ≠ some PyNum.inf →
        (process_live_data_exc cfg st m hist).isOk = true) := by
  constructor
  · exact tryExceptVT_ok_or_overflow _ st
  · intro h1 h2
    apply tryExceptVT_isOk
    simp only
    split
    · simp
    · split
      · simp
      · exact process_tick_exc_no_overflow cfg _ m h1 h2

theorem process_live_data_exc_contained_witness :
    mC6ok.exch_feed_time ≠ some PyNum.inf
    ∧ mC6ok.last_traded_time ≠ some PyNum.inf
    ∧ (process_live_data_exc cfgW initState mC6ok none).isOk = true := by
  refine ⟨by decide, by decide, ?_⟩
  exact (process_live_data_exc_contained cfgW initState mC6ok none).2
    (by decide) (by decide)

/-- C6 counterexample: a tick whose timestamp is `float('inf')` makes
the timestamp normalization raise `OverflowError` inside
`process_tick`; the `except (ValueError, TypeError)` wrapper of
`process_live_data` does not catch it, so the exception propagates to
the caller instead of a candle-or-`None` result. -/
theorem process_live_data_exc_overflow_escapes :
    process_live_data_exc cfgW initState mC6inf none
      = Except.error PyErr.overflowError := by
  rfl

